import Mathlib

/-! registry-gc-listener: a verification development.

Shallow embedding of `src/main.go` (the registry garbage-collect listener).

* Go strings are byte strings. Tag and repository names reach the program
  through `encoding/json`, which only yields valid UTF-8, so they are embedded
  as Lean `String`s; the byte-wise order of valid UTF-8 coincides with the
  code-point order used here.
* `newer` (main.go:331) calls `semver.StrictNewVersion` and
  `Version.GreaterThan` of `github.com/Masterminds/semver/v3` (imported at
  main.go:27, not part of this repository). These library functions are
  transcribed in the namespaces `strconv`, `strings` and `semver` below.
* `sort.Slice` (main.go:238) is the standard library sort; `pruneTags` takes it
  as a parameter, and `sort.insertionSortLessFunc` is the routine the standard
  library runs for slices of at most 12 elements.
-/

set_option autoImplicit false

/-! ## Go string primitives -/

/-- Lexicographic comparison of two sequences under the element order `lt`: the
first position where the sequences differ decides, and a sequence that is a
proper initial segment of the other is the smaller one. -/
def lexLess {α : Type} (lt : α → α → Bool) : List α → List α → Bool
  | [], [] => false
  | [], _ :: _ => true
  | _ :: _, [] => false
  | a :: as, b :: bs =>
    if lt a b then true
    else if lt b a then false
    else lexLess lt as bs

/-- A Boolean relation that is a strict total order. -/
structure StrictTotal {α : Type} (lt : α → α → Bool) : Prop where
  irrefl : ∀ a, lt a a = false
  trans : ∀ a b c, lt a b = true → lt b c = true → lt a c = true
  total : ∀ a b, a ≠ b → lt a b = true ∨ lt b a = true

namespace strings

/-- Go's built-in `a < b` on strings: lexicographic comparison of the bytes, a
proper initial segment being smaller. -/
def Less (a b : List Char) : Bool :=
  lexLess (fun x y => decide (x.toNat < y.toNat)) a b

/-- Go's built-in `a > b` on strings. -/
def Greater (a b : List Char) : Bool := Less b a

/-- Splits `s` around the first occurrence of the separator `sep`; `none` when
`sep` does not occur. It stands for the pair `strings.Contains(s, sep)` and
`strings.SplitN(s, sep, 2)` of `StrictNewVersion`. -/
def Cut (sep : Char) : List Char → Option (List Char × List Char)
  | [] => none
  | c :: cs =>
    if c = sep then some ([], cs)
    else match Cut sep cs with
      | none => none
      | some (a, b) => some (c :: a, b)

/-- Model of `strings.SplitN(s, sep, n)` for a one-character `sep` and `n ≥ 0`: at
most `n` pieces, the last one being the unsplit remainder. -/
def SplitN (sep : Char) : List Char → Nat → List (List Char)
  | _, 0 => []
  | s, 1 => [s]
  | s, n + 2 =>
    match Cut sep s with
    | none => [s]
    | some (a, b) => a :: SplitN sep b (n + 1)

/-- Model of `strings.Split(s, sep)` for a one-character `sep`: all pieces. -/
def Split (sep : Char) : List Char → List (List Char)
  | [] => [[]]
  | c :: cs =>
    if c = sep then [] :: Split sep cs
    else match Split sep cs with
      | [] => [[c]]
      | p :: ps => (c :: p) :: ps

end strings

namespace strconv

/-- An ASCII decimal digit. -/
def isDigit (c : Char) : Bool := decide (48 ≤ c.toNat) && decide (c.toNat ≤ 57)

/-- The accumulation loop of `ParseUint` in base 10, without the range check. -/
def digitsVal : List Char → Nat → Nat
  | [], n => n
  | c :: cs, n => digitsVal cs (n * 10 + (c.toNat - 48))

/-- Model of `strconv.ParseUint(s, 10, 64)`: `none` stands for a non-nil error (empty
input, a byte that is not a decimal digit, or a value above `2^64 - 1`). -/
def ParseUint (s : List Char) : Option Nat :=
  if s.isEmpty then none
  else if !s.all isDigit then none
  else if digitsVal s 0 < 18446744073709551616 then some (digitsVal s 0)
  else none

end strconv

/-! ## github.com/Masterminds/semver/v3 (version.go) -/

namespace semver

/-- The constant `num = "0123456789"`. -/
def num (c : Char) : Bool := strconv.isDigit c

/-- The constant `allowed`: ASCII letters, the hyphen and the digits. -/
def allowed (c : Char) : Bool :=
  (decide (97 ≤ c.toNat) && decide (c.toNat ≤ 122)) ||
  (decide (65 ≤ c.toNat) && decide (c.toNat ≤ 90)) ||
  c.toNat == 45 || num c

/-- Model of `containsOnly(s, comp)`: every rune of `s` is in `comp`. -/
def containsOnly (s : List Char) (comp : Char → Bool) : Bool := s.all comp

/-- The check `len(p) > 1 && p[0] == '0'`. -/
def startsZero : List Char → Bool
  | c :: _ :: _ => c.toNat == 48
  | _ => false

/-- One identifier of a pre-release passes `validatePrerelease`. -/
def validPrePart (p : List Char) : Bool :=
  if p.isEmpty then false
  else if containsOnly p num then !startsZero p
  else containsOnly p allowed

/-- Model of `validatePrerelease(p) == nil`. -/
def validatePrerelease (p : List Char) : Bool :=
  (strings.Split '.' p).all validPrePart

/-- Model of `validateMetadata(m) == nil`. -/
def validateMetadata (m : List Char) : Bool :=
  (strings.Split '.' m).all fun p => !p.isEmpty && containsOnly p allowed

/-- The fields of `semver.Version` that comparison reads (the field `original`
is only used for printing). -/
structure Version where
  major : Nat
  minor : Nat
  patch : Nat
  pre : List Char
  metadata : List Char
  deriving DecidableEq, Repr

/-- The check run on each of the three numeric segments. -/
def validSegment (p : List Char) : Bool := containsOnly p num && !startsZero p

/-- Model of `semver.StrictNewVersion(v)`; `none` stands for a non-nil error. -/
def StrictNewVersion (v : List Char) : Option Version :=
  if v.isEmpty then none
  else match strings.SplitN '.' v 3 with
    | [p0, p1, p2] =>
      -- build metadata: everything after the first '+'
      match (match strings.Cut '+' p2 with
             | some (a, m) => if validateMetadata m then some (a, m) else none
             | none => some (p2, [])) with
      | none => none
      | some (p2a, metadata) =>
        -- pre-release: everything after the first '-'
        match (match strings.Cut '-' p2a with
               | some (a, p) => if validatePrerelease p then some (a, p) else none
               | none => some (p2a, [])) with
        | none => none
        | some (p2b, pre) =>
          if validSegment p0 && validSegment p1 && validSegment p2b then
            match strconv.ParseUint p0, strconv.ParseUint p1, strconv.ParseUint p2b with
            | some major, some minor, some patch =>
              some ⟨major, minor, patch, pre, metadata⟩
            | _, _, _ => none
          else none
    | _ => none

/-- Model of `compareSegment(v, o)`. -/
def compareSegment (v o : Nat) : Int :=
  if v < o then -1 else if v > o then 1 else 0

/-- Model of `comparePrePart(s, o)`. -/
def comparePrePart (s o : List Char) : Int :=
  if s = o then 0
  else if s.isEmpty then (if !o.isEmpty then -1 else 1)
  else if o.isEmpty then (if !s.isEmpty then 1 else -1)
  else
    match strconv.ParseUint o, strconv.ParseUint s with
    | none, none => if strings.Greater s o then 1 else -1
    | none, some _ => -1
    | some _, none => 1
    | some oi, some si => if si > oi then 1 else -1

/-- The iterations of the loop of `comparePrerelease` that remain once the
identifiers of `v` have run out: `stemp` is the placeholder `""`. -/
def comparePartsLeft : List (List Char) → Int
  | [] => 0
  | o :: os =>
    if comparePrePart [] o ≠ 0 then comparePrePart [] o else comparePartsLeft os

/-- The loop of `comparePrerelease` over the identifier lists; a list that has
run out contributes the placeholder `""`. -/
def compareParts : List (List Char) → List (List Char) → Int
  | [], os => comparePartsLeft os
  | s :: ss, [] =>
    if comparePrePart s [] ≠ 0 then comparePrePart s [] else compareParts ss []
  | s :: ss, o :: os =>
    if comparePrePart s o ≠ 0 then comparePrePart s o else compareParts ss os

/-- Model of `comparePrerelease(v, o)`. -/
def comparePrerelease (v o : List Char) : Int :=
  compareParts (strings.Split '.' v) (strings.Split '.' o)

/-- Model of `(*Version).Compare`. -/
def Version.Compare (v o : Version) : Int :=
  if compareSegment v.major o.major ≠ 0 then compareSegment v.major o.major
  else if compareSegment v.minor o.minor ≠ 0 then compareSegment v.minor o.minor
  else if compareSegment v.patch o.patch ≠ 0 then compareSegment v.patch o.patch
  else if v.pre.isEmpty && o.pre.isEmpty then 0
  else if v.pre.isEmpty then 1
  else if o.pre.isEmpty then -1
  else comparePrerelease v.pre o.pre

/-- Model of `(*Version).GreaterThan`. -/
def Version.GreaterThan (v o : Version) : Bool := decide (v.Compare o > 0)

end semver

/-! ## main.go: the comparator -/

/-- Go's `newer(a, b)` (main.go:331-338). -/
def newer (a b : String) : Bool :=
  match semver.StrictNewVersion a.data, semver.StrictNewVersion b.data with
  | some va, some vb => va.GreaterThan vb
  | _, _ => strings.Greater a.data b.data

/-! ## Semantic Versioning 2.0.0, section 11: precedence -/

namespace SemVerSpec

/-- A pre-release identifier: numeric (digits only) or alphanumeric. -/
inductive Ident where
  | numeric (n : Nat)
  | alphanum (s : List Char)
  deriving DecidableEq, Repr

/-- Precedence of identifiers (11.4): numeric identifiers are compared
numerically, alphanumeric ones lexically in ASCII order, and a numeric
identifier is lower than an alphanumeric one. -/
def Ident.lt : Ident → Ident → Bool
  | .numeric a, .numeric b => decide (a < b)
  | .numeric _, .alphanum _ => true
  | .alphanum _, .numeric _ => false
  | .alphanum a, .alphanum b => strings.Less a b

/-- A semantic version without its build metadata, which precedence ignores;
`pre = []` is a normal (release) version. -/
structure SemVer where
  major : Nat
  minor : Nat
  patch : Nat
  pre : List Ident
  deriving DecidableEq, Repr

/-- Lower precedence of pre-release fields when major, minor and patch are
equal (11.3, 11.4): a pre-release version is lower than the normal version
(`[]`), and two pre-release versions are compared identifier by identifier, a
longer list being higher when all earlier identifiers are equal. -/
def preLt : List Ident → List Ident → Bool
  | [], _ => false
  | _ :: _, [] => true
  | p :: ps, q :: qs => lexLess Ident.lt (p :: ps) (q :: qs)

/-- Lower precedence (11.2): `a.lt b` says `a` has strictly lower precedence than
`b`. Major, minor and patch are compared numerically in that order, then the
pre-release fields. -/
def SemVer.lt (a b : SemVer) : Bool :=
  if a.major ≠ b.major then decide (a.major < b.major)
  else if a.minor ≠ b.minor then decide (a.minor < b.minor)
  else if a.patch ≠ b.patch then decide (a.patch < b.patch)
  else preLt a.pre b.pre

/-- Reads a dot-separated piece of a pre-release as an identifier: numeric when
it consists of digits only. -/
def identOf (p : List Char) : Ident :=
  if !p.isEmpty && p.all strconv.isDigit then .numeric (strconv.digitsVal p 0)
  else .alphanum p

/-- The identifiers of a pre-release string; the empty string is no pre-release. -/
def identsOf (pre : List Char) : List Ident :=
  if pre.isEmpty then [] else (strings.Split '.' pre).map identOf

/-- The semantic version a parsed `semver.Version` denotes. -/
def ofVersion (v : semver.Version) : SemVer :=
  ⟨v.major, v.minor, v.patch, identsOf v.pre⟩

/-- Every numeric pre-release identifier of `pre` is below `2^64`. -/
def numericFits (pre : List Char) : Bool :=
  (strings.Split '.' pre).all fun p =>
    !(p.all strconv.isDigit) || decide (strconv.digitsVal p 0 < 18446744073709551616)

end SemVerSpec

namespace semver

/-- How `comparePrePart` classifies an identifier: a number when
`strconv.ParseUint` accepts it, a string otherwise. -/
def partKey (p : List Char) : SemVerSpec.Ident :=
  match strconv.ParseUint p with
  | some n => .numeric n
  | none => .alphanum p

/-- The version as `Compare` sees it. -/
def keyOf (v : Version) : SemVerSpec.SemVer :=
  ⟨v.major, v.minor, v.patch, if v.pre.isEmpty then [] else (strings.Split '.' v.pre).map partKey⟩

/-- A pre-release field as `StrictNewVersion` leaves it: absent or validated. -/
def PreOk (pre : List Char) : Prop := pre = [] ∨ validatePrerelease pre = true

end semver

/-- The tag is accepted by `semver.StrictNewVersion`. -/
def isSemver (a : String) : Bool := (semver.StrictNewVersion a.data).isSome

/-- The semantic version denoted by a tag that `semver.StrictNewVersion` accepts. -/
def semverOf (a : String) : Option SemVerSpec.SemVer :=
  (semver.StrictNewVersion a.data).map SemVerSpec.ofVersion

/-- Tag `a` has strictly higher semantic-version precedence than tag `b` (both
being semantic versions). -/
def higherPrecedence (a b : String) : Bool :=
  match semverOf a, semverOf b with
  | some va, some vb => vb.lt va
  | _, _ => false

/-- The tag is a semantic version all of whose numeric pre-release identifiers
are below `2^64`. -/
def fitsUint64 (a : String) : Bool :=
  match semver.StrictNewVersion a.data with
  | some v => SemVerSpec.numericFits v.pre
  | none => false

/-! ## sort.Slice -/

namespace sort

/-- The inner loop of `insertionSortLessFunc`
(`for j := i; j > a && less(data[j], data[j-1]); j-- { swap(j, j-1) }`): the
element `x` moves left past every neighbour it is less than. The already
sorted part is held nearest neighbour first. -/
def insertLeft {α : Type} (less : α → α → Bool) (x : α) : List α → List α
  | [] => [x]
  | y :: ys => if less x y then y :: insertLeft less x ys else x :: y :: ys

/-- The outer loop of `insertionSortLessFunc`: `done` is the sorted part (nearest
neighbour first), the second argument the elements still to insert. -/
def insertionSortLoop {α : Type} (less : α → α → Bool) : List α → List α → List α
  | done, [] => done.reverse
  | done, x :: xs => insertionSortLoop less (insertLeft less x done) xs

/-- The standard library's `insertionSortLessFunc`, which is what `sort.Slice`
runs on a slice of at most 12 elements. -/
def insertionSortLessFunc {α : Type} (less : α → α → Bool) (data : List α) : List α :=
  insertionSortLoop less [] data

/-- What `sort.Slice` does whatever the less function is: it only swaps
elements, so the result is a rearrangement of the input. -/
def Permutes (Slice : (String → String → Bool) → List String → List String) : Prop :=
  ∀ less xs, (Slice less xs).Perm xs

/-- The less function is a strict weak ordering on the elements of `xs`, the
requirement `sort.Slice` documents for its less function. -/
def StrictWeakOn (less : String → String → Bool) (xs : List String) : Prop :=
  (∀ a ∈ xs, less a a = false) ∧
  (∀ a ∈ xs, ∀ b ∈ xs, ∀ c ∈ xs, less a b = true → less b c = true → less a c = true) ∧
  (∀ a ∈ xs, ∀ b ∈ xs, ∀ c ∈ xs, less a c = true → less a b = true ∨ less b c = true)

/-- The contract of `sort.Slice`: the result is a rearrangement of the input,
and when the less function is a strict weak ordering on the elements no element
is less than one placed before it. -/
def Sorts (Slice : (String → String → Bool) → List String → List String) : Prop :=
  Permutes Slice ∧
  ∀ less xs, StrictWeakOn less xs →
    (Slice less xs).Pairwise (fun a b => less b a = false)

end sort

/-! ## main.go: registry client, prune and garbage-collect -/

/-- Go `error` values produced by the registry helpers. -/
inductive GoError where
  | transport (msg : String)
  | status (code : Nat)
  | decode
  deriving DecidableEq, Repr

/-- Outcome of `httpClient.Do`: a transport error, or a response with its status
code and the part of it the caller reads. -/
inductive Http (α : Type) where
  | failed (msg : String)
  | response (status : Nat) (payload : α)

/-- The registry as seen through its HTTP API, with state `σ`. The payload of
the two JSON endpoints is the decoded list (`none`: the body does not decode);
the payload of the manifest lookup is the `Docker-Content-Digest` header. -/
structure Server (σ : Type) where
  getCatalog : σ → Http (Option (List String)) × σ
  getTags : String → σ → Http (Option (List String)) × σ
  getManifest : String → String → σ → Http String × σ
  deleteManifest : String → String → σ → Http Unit × σ

/-- An effect of the program that the claims observe. -/
inductive Call where
  | catalog
  | tagsList (repo : String)
  | manifestDigest (repo tag : String)
  | deleteManifest (repo digest : String)
  | gc
  deriving DecidableEq, Repr

/-- The type `job` of `pruneTags` (main.go:211). -/
structure Job where
  repo : String
  tag : String
  digest : String
  deriving DecidableEq, Repr

/-- The world a run acts on: the registry state, the calls made so far (oldest
first) and the jobs sent on the channel `jobs` so far (oldest first). -/
structure Run (σ : Type) where
  st : σ
  log : List Call
  jobs : List Job

/-- Model of `jsonDo` (main.go:268-278) applied to the outcome of the request. -/
def jsonDo {α : Type} (res : Http (Option α)) : Except GoError α :=
  match res with
  | .failed msg => .error (.transport msg)
  | .response status body =>
    if status / 100 ≠ 2 then .error (.status status)
    else match body with
      | none => .error .decode
      | some v => .ok v

/-- Model of `catalog` (main.go:280-289). -/
def catalog {σ : Type} (srv : Server σ) (r : Run σ) : Except GoError (List String) × Run σ :=
  let res := srv.getCatalog r.st
  (jsonDo res.1, { r with st := res.2, log := r.log ++ [Call.catalog] })

/-- Model of `tagsList` (main.go:291-300). -/
def tagsList {σ : Type} (srv : Server σ) (repo : String) (r : Run σ) :
    Except GoError (List String) × Run σ :=
  let res := srv.getTags repo r.st
  (jsonDo res.1, { r with st := res.2, log := r.log ++ [Call.tagsList repo] })

/-- The part of `manifestDigest` after `httpClient.Do` (main.go:306-313). -/
def digestResult (res : Http String) : Except GoError String :=
  match res with
  | .failed msg => .error (.transport msg)
  | .response status digest =>
    if status ≠ 200 then .error (.status status) else .ok digest

/-- Model of `manifestDigest` (main.go:302-314). -/
def manifestDigest {σ : Type} (srv : Server σ) (repo tag : String) (r : Run σ) :
    Except GoError String × Run σ :=
  let res := srv.getManifest repo tag r.st
  (digestResult res.1, { r with st := res.2, log := r.log ++ [Call.manifestDigest repo tag] })

/-- The part of `deleteManifest` after `httpClient.Do` (main.go:319-326); `none`
is the `nil` error. -/
def deleteResult (res : Http Unit) : Option GoError :=
  match res with
  | .failed msg => some (.transport msg)
  | .response status _ =>
    if status / 100 ≠ 2 then some (.status status) else none

/-- Model of `deleteManifest` (main.go:316-327). -/
def deleteManifest {σ : Type} (srv : Server σ) (repo digest : String) (r : Run σ) :
    Option GoError × Run σ :=
  let res := srv.deleteManifest repo digest r.st
  (deleteResult res.1,
    { r with st := res.2, log := r.log ++ [Call.deleteManifest repo digest] })

/-- Model of `runGC` (main.go:163-178): the external `registry garbage-collect`
run, recorded in the log; both of its exits return to the caller. -/
def runGC {σ : Type} (r : Run σ) : Run σ := { r with log := r.log ++ [Call.gc] }

/-- How a loop of `pruneTags` leaves: it goes on to the next statement, or the
goroutine is parked for good on the send `jobs <- job`. -/
inductive LoopExit (σ : Type) where
  | next (r : Run σ)
  | parked (r : Run σ)

/-- The world in which a loop is left. -/
def LoopExit.run {σ : Type} : LoopExit σ → Run σ
  | .next r => r
  | .parked r => r

/-- How a call ends: it returns (with its error, `none` being `nil`), or it
never returns. -/
inductive Outcome (σ : Type) where
  | returned (err : Option GoError) (r : Run σ)
  | blocked (r : Run σ)

/-- The final world of an outcome. -/
def Outcome.run {σ : Type} : Outcome σ → Run σ
  | .returned _ r => r
  | .blocked r => r

/-- The call never returns. -/
def Outcome.isBlocked {σ : Type} : Outcome σ → Bool
  | .returned _ _ => false
  | .blocked _ => true

/-- The error a call returned; `none` when it returned `nil` or never returned. -/
def Outcome.err {σ : Type} : Outcome σ → Option GoError
  | .returned e _ => e
  | .blocked _ => none

/-- The send `jobs <- job{repo, tag, digest}` (main.go:245) on the unbuffered
channel. It completes only when one of the `workers` goroutines started at
main.go:215-227 receives; that worker then calls `deleteManifest` and only logs
its result (main.go:219-225). The deletion is placed at the hand-off. With
`workers <= 0` no goroutine ever receives. -/
def sendJob {σ : Type} (srv : Server σ) (workers : Int) (j : Job) (r : Run σ) : LoopExit σ :=
  if workers ≤ 0 then .parked r
  else .next (deleteManifest srv j.repo j.digest { r with jobs := r.jobs ++ [j] }).2

/-- The loop over the deletion candidates of one repository (main.go:239-246). -/
def pruneCandidates {σ : Type} (srv : Server σ) (workers : Int) (repo : String) :
    List String → Run σ → LoopExit σ
  | [], r => .next r
  | tag :: rest, r =>
    match manifestDigest srv repo tag r with
    | (.error _, r1) => pruneCandidates srv workers repo rest r1
    | (.ok digest, r1) =>
      match sendJob srv workers ⟨repo, tag, digest⟩ r1 with
      | .parked r2 => .parked r2
      | .next r2 => pruneCandidates srv workers repo rest r2

/-- The deletion candidates of a tag list (main.go:238-239): the tags at index
`>= keepN` after `sort.Slice` with `newer`. -/
def candidates (Slice : (String → String → Bool) → List String → List String)
    (keepN : Nat) (tags : List String) : List String :=
  (Slice newer tags).drop keepN

/-- The tags that are kept: those at index `< keepN` after the sort. -/
def kept (Slice : (String → String → Bool) → List String → List String)
    (keepN : Nat) (tags : List String) : List String :=
  (Slice newer tags).take keepN

/-- The loop over the repositories of the catalog (main.go:229-247). -/
def pruneRepos {σ : Type} (srv : Server σ)
    (Slice : (String → String → Bool) → List String → List String)
    (keepN : Nat) (workers : Int) : List String → Run σ → LoopExit σ
  | [], r => .next r
  | repo :: rest, r =>
    match tagsList srv repo r with
    | (.error _, r1) => pruneRepos srv Slice keepN workers rest r1
    | (.ok tags, r1) =>
      if tags.length ≤ keepN then pruneRepos srv Slice keepN workers rest r1
      else
        match pruneCandidates srv workers repo (candidates Slice keepN tags) r1 with
        | .parked r2 => .parked r2
        | .next r2 => pruneRepos srv Slice keepN workers rest r2

/-- Model of `pruneTags` (main.go:204-251) for `keepN >= 0`, the only values it is
called with. `close(jobs); wg.Wait()` returns once the workers have finished
the jobs they received. -/
def pruneTags {σ : Type} (srv : Server σ)
    (Slice : (String → String → Bool) → List String → List String)
    (keepN : Nat) (workers : Int) (r : Run σ) : Outcome σ :=
  match catalog srv r with
  | (.error e, r1) => .returned (some e) r1
  | (.ok repos, r1) =>
    match pruneRepos srv Slice keepN workers repos r1 with
    | .parked r2 => .blocked r2
    | .next r2 => .returned none r2

/-- Model of `runPrune` (main.go:182-200). -/
def runPrune {σ : Type} (srv : Server σ)
    (Slice : (String → String → Bool) → List String → List String)
    (keepN : Int) (workers : Int) (user : String) (r : Run σ) : Outcome σ :=
  if keepN ≤ 0 then .returned none (runGC r)
  else if user = "" then .returned none (runGC r)
  else
    match pruneTags srv Slice keepN.toNat workers r with
    | .blocked r1 => .blocked r1
    | .returned _ r1 => .returned none (runGC r1)

/-! ### Two registries -/

/-- A registry whose answer depends only on the request. -/
structure Responses where
  catalog : Http (Option (List String))
  tags : String → Http (Option (List String))
  manifest : String → String → Http String
  delete : String → String → Http Unit

/-- The server of a registry whose answer depends only on the request. -/
def Responses.server (R : Responses) : Server Unit where
  getCatalog := fun s => (R.catalog, s)
  getTags := fun repo s => (R.tags repo, s)
  getManifest := fun repo tag s => (R.manifest repo tag, s)
  deleteManifest := fun repo digest s => (R.delete repo digest, s)

/-- The start of a run: nothing called, nothing sent. -/
def Run.start {σ : Type} (s : σ) : Run σ := ⟨s, [], []⟩

/-- The tag listing of a repository as `tagsList` returns it; empty when the
listing fails. -/
def Responses.listedTags (R : Responses) (repo : String) : List String :=
  match jsonDo (R.tags repo) with
  | .ok tags => tags
  | .error _ => []

/-- The job of a candidate tag when its digest resolution succeeds. -/
def Responses.jobOf (R : Responses) (repo tag : String) : Option Job :=
  match digestResult (R.manifest repo tag) with
  | .ok digest => some ⟨repo, tag, digest⟩
  | .error _ => none

/-- The delete jobs in the words of the specification: for each catalog
repository, in catalog order, whose tag listing succeeds, one job per tag ranked
at index `>= keepN` whose digest resolution succeeds. -/
def Responses.expectedJobs (R : Responses)
    (Slice : (String → String → Bool) → List String → List String)
    (keepN : Nat) (repos : List String) : List Job :=
  (repos.map fun repo =>
    ((Slice newer (R.listedTags repo)).drop keepN).filterMap (R.jobOf repo)).flatten

/-- The registry as explicit state: the catalog, and per repository the tags
with the digest each resolves to. -/
structure Registry where
  repos : List String
  tags : String → List (String × String)

/-- The tag names of a repository, in listing order. -/
def Registry.tagNames (reg : Registry) (repo : String) : List String :=
  (reg.tags repo).map Prod.fst

/-- The registry holds a manifest with this digest in the repository. -/
def Registry.holds (reg : Registry) (repo digest : String) : Bool :=
  (reg.tags repo).any fun e => e.2 == digest

/-- Deleting a manifest removes every tag that resolves to its digest. -/
def Registry.remove (reg : Registry) (repo digest : String) : Registry :=
  { reg with tags := fun r =>
      if r = repo then (reg.tags r).filter fun e => !(e.2 == digest) else reg.tags r }

/-- The registry server over the explicit state: listings answer 200, a manifest
lookup answers 200 with the digest of the tag or 404, and a manifest deletion
answers 202 when the manifest is held and 404 when it is not. -/
def Registry.server : Server Registry where
  getCatalog := fun reg => (.response 200 (some reg.repos), reg)
  getTags := fun repo reg => (.response 200 (some (reg.tagNames repo)), reg)
  getManifest := fun repo tag reg =>
    match (reg.tags repo).lookup tag with
    | some d => (.response 200 d, reg)
    | none => (.response 404 "", reg)
  deleteManifest := fun repo digest reg =>
    if reg.holds repo digest then (.response 202 (), reg.remove repo digest)
    else (.response 404 (), reg)

/-! ### The debounce flag and the goroutines that reach `runGC` -/

/-- Who called `runGC`. -/
inductive Origin where
  | hook
  | manual
  | ticker
  deriving DecidableEq, Repr

/-- The process state the scheduling claims are about. -/
structure Sys where
  /-- the flag `hookPend` (main.go:50) -/
  hookPend : Bool
  /-- delayed actions of `scheduleGC` waiting in `select` (main.go:138) -/
  armed : Nat
  /-- goroutines about to call `runGC`, per origin -/
  readyHook : Nat
  readyManual : Nat
  readyTicker : Nat
  /-- `runGC` invocations in progress, per origin -/
  runningHook : Nat
  runningManual : Nat
  runningTicker : Nat
  /-- delayed actions started by `scheduleGC` so far -/
  started : Nat
  /-- `runGC` invocations made by delayed actions so far -/
  hookGCs : Nat
  deriving DecidableEq, Repr

/-- The state at program start. -/
def Sys.init : Sys := ⟨false, 0, 0, 0, 0, 0, 0, 0, 0, 0⟩

/-- The number of `runGC` invocations in progress. -/
def Sys.running (s : Sys) : Nat := s.runningHook + s.runningManual + s.runningTicker

/-- The number of delayed actions of `scheduleGC` that are alive. -/
def Sys.hookAlive (s : Sys) : Nat := s.armed + s.readyHook + s.runningHook

/-- Model of `scheduleGC` (main.go:127-147) up to the start of the goroutine. -/
def scheduleGC (s : Sys) : Sys :=
  if s.hookPend then s
  else { s with hookPend := true, armed := s.armed + 1, started := s.started + 1 }

/-- The steps of the system. Shutdown (`ctx.Done()`) is not among them. -/
inductive Event where
  /-- `hookHandler` found a delete event and calls `scheduleGC` -/
  | notify
  /-- `time.After(debounce)` fires in a delayed action (main.go:139) -/
  | timerFire
  /-- a request to `/gc`: `go runGC(ctx)` (main.go:152) -/
  | gcRequest
  /-- a request to `/prune`: `go runPrune(ctx)` (main.go:157) -/
  | pruneRequest
  /-- the ticker delivers a tick to the loop at main.go:96-103 -/
  | tick
  /-- a goroutine of that origin enters `runGC` -/
  | gcStart (o : Origin)
  /-- a `runGC` invocation of that origin returns to its caller -/
  | gcDone (o : Origin)
  deriving DecidableEq, Repr

/-- One step; an event that cannot happen in the state leaves it unchanged. -/
def Sys.step (s : Sys) : Event → Sys
  | .notify => scheduleGC s
  | .timerFire =>
    if 0 < s.armed then { s with armed := s.armed - 1, readyHook := s.readyHook + 1 } else s
  | .gcRequest => { s with readyManual := s.readyManual + 1 }
  | .pruneRequest => { s with readyManual := s.readyManual + 1 }
  | .tick =>
    -- the loop calls `runPrune` itself, so it takes a tick only when idle
    if s.readyTicker + s.runningTicker = 0 then { s with readyTicker := 1 } else s
  | .gcStart .hook =>
    if 0 < s.readyHook then
      { s with readyHook := s.readyHook - 1, runningHook := s.runningHook + 1,
               hookGCs := s.hookGCs + 1 }
    else s
  | .gcStart .manual =>
    if 0 < s.readyManual then
      { s with readyManual := s.readyManual - 1, runningManual := s.runningManual + 1 }
    else s
  | .gcStart .ticker =>
    if 0 < s.readyTicker then
      { s with readyTicker := s.readyTicker - 1, runningTicker := s.runningTicker + 1 }
    else s
  | .gcDone .hook =>
    -- after `runGC` the delayed action clears the flag (main.go:143-145)
    if 0 < s.runningHook then { s with runningHook := s.runningHook - 1, hookPend := false }
    else s
  | .gcDone .manual =>
    if 0 < s.runningManual then { s with runningManual := s.runningManual - 1 } else s
  | .gcDone .ticker =>
    if 0 < s.runningTicker then { s with runningTicker := s.runningTicker - 1 } else s

/-- The state after a sequence of steps. -/
def Sys.exec (s : Sys) (es : List Event) : Sys := es.foldl Sys.step s

/-- The part of the state that the debounce path reads and writes. -/
structure HookView where
  hookPend : Bool
  armed : Nat
  readyHook : Nat
  runningHook : Nat
  started : Nat
  hookGCs : Nat
  deriving DecidableEq, Repr

/-- The debounce part of a state. -/
def Sys.hookView (s : Sys) : HookView :=
  ⟨s.hookPend, s.armed, s.readyHook, s.runningHook, s.started, s.hookGCs⟩

/-- The event is a step of a delayed action of `scheduleGC`: its timer fires, it
enters `runGC`, or its `runGC` returns. -/
def Event.isHookStep : Event → Bool
  | .timerFire => true
  | .gcStart .hook => true
  | .gcDone .hook => true
  | _ => false

/-- A state in the middle of a run: one debounced collection has completed and a
collection requested through `/gc` is in progress. -/
def busyState : Sys :=
  Sys.init.exec [Event.notify, Event.timerFire, Event.gcStart Origin.hook,
    Event.gcDone Origin.hook, Event.gcRequest, Event.gcStart Origin.manual]

/-- The tag listing `tagsList` obtains from the registry in state `s`; empty when
the listing fails. -/
def Server.listing {σ : Type} (srv : Server σ) (repo : String) (s : σ) : List String :=
  match jsonDo (srv.getTags repo s).1 with
  | .ok tags => tags
  | .error _ => []

/-- The catalog `catalog` obtains from the registry in state `s`; empty when the
call fails. -/
def Server.repositories {σ : Type} (srv : Server σ) (s : σ) : List String :=
  match jsonDo (srv.getCatalog s).1 with
  | .ok repos => repos
  | .error _ => []

/-- Both tags are accepted by `semver.StrictNewVersion` and agree in major,
minor, patch and pre-release: they differ in their build metadata only. -/
def sameVersion (a b : String) : Bool :=
  match semver.StrictNewVersion a.data, semver.StrictNewVersion b.data with
  | some va, some vb =>
    va.major == vb.major && va.minor == vb.minor && va.patch == vb.patch && va.pre == vb.pre
  | _, _ => false

/-- Joins pieces with the separator: the inverse of `strings.Split`. -/
def strings.Join (sep : Char) : List (List Char) → List Char
  | [] => []
  | [p] => p
  | p :: q :: rest => p ++ sep :: strings.Join sep (q :: rest)

/-- The calls a run has added to the log are registry calls, not `runGC`. -/
def LogGrows {σ : Type} (r r1 : Run σ) : Prop :=
  ∃ calls, r1.log = r.log ++ calls ∧ Call.gc ∉ calls

/-- The invariant of the scheduling state. -/
def Sys.Inv (s : Sys) : Prop :=
  s.hookAlive = (if s.hookPend then 1 else 0) ∧ s.readyTicker + s.runningTicker ≤ 1

/-! ### Sample registries -/

/-- A sample registry with the repositories `a`, `b`, `c`: the listing of `b`
fails with status 500 and the digest of `c:1.0.0` is not found. -/
def sampleResponses : Responses where
  catalog := .response 200 (some ["a", "b", "c"])
  tags := fun repo =>
    if repo = "a" then .response 200 (some ["1.0.0", "1.10.0", "1.9.0"])
    else if repo = "b" then .response 500 none
    else .response 200 (some ["2.0.0", "1.0.0", "3.0.0"])
  manifest := fun repo tag =>
    if repo = "c" ∧ tag = "1.0.0" then .response 404 ""
    else .response 200 ("sha256:" ++ repo ++ tag)
  delete := fun _ _ => .response 202 ()

/-- The registry of the end-to-end scenario: repository `app` with the tags
`v3`, `v2`, `v1`, each with a digest of its own. -/
def appRegistry : Registry :=
  ⟨["app"], fun repo =>
    if repo = "app" then [("v3", "sha256:c"), ("v2", "sha256:b"), ("v1", "sha256:a")] else []⟩

/-- The same repository when `v1` is a second tag of the manifest of `v3`. -/
def sharedRegistry : Registry :=
  ⟨["app"], fun repo =>
    if repo = "app" then [("v3", "sha256:c"), ("v2", "sha256:b"), ("v1", "sha256:c")] else []⟩

/-- Repository `app` with two kept tags on one manifest and two deletion
candidates on another. -/
def twinRegistry : Registry :=
  ⟨["app"], fun repo =>
    if repo = "app" then
      [("v4", "sha256:d"), ("v3", "sha256:d"), ("v2", "sha256:b"), ("v1", "sha256:b")]
    else []⟩

/-- The registry `sampleResponses` when the listing of `b` succeeds. -/
def healthyListing : Responses :=
  { sampleResponses with
    tags := fun repo =>
      if repo = "b" then .response 200 (some ["0.2.0", "0.1.0"]) else sampleResponses.tags repo }

/-- The registry `sampleResponses` when the digest of `c:1.0.0` resolves. -/
def healthyDigest : Responses :=
  { sampleResponses with
    manifest := fun repo tag =>
      if repo = "c" ∧ tag = "1.0.0" then .response 200 "sha256:c1.0.0"
      else sampleResponses.manifest repo tag }

/-- The registry `sampleResponses` with a catalog that names `a` twice. -/
def repeatedCatalog : Responses :=
  { sampleResponses with catalog := .response 200 (some ["a", "a"]) }

/-! # Theorems -/

theorem StrictTotal.asymm {α : Type} {lt : α → α → Bool} (h : StrictTotal lt) (a b : α)
    (hab : lt a b = true) : lt b a = false := by
  cases hba : lt b a with
  | false => rfl
  | true =>
    have := h.trans a b a hab hba
    rw [h.irrefl] at this
    exact absurd this (by decide)

theorem lexLess_cons_iff {α : Type} {lt : α → α → Bool} (h : StrictTotal lt)
    (a b : α) (as bs : List α) :
    lexLess lt (a :: as) (b :: bs) = true ↔
      lt a b = true ∨ (a = b ∧ lexLess lt as bs = true) := by
  rw [lexLess]
  by_cases hab : lt a b = true
  · simp [hab]
  · by_cases hba : lt b a = true
    · have hne : a ≠ b := by
        rintro rfl
        rw [h.irrefl] at hba
        exact absurd hba (by decide)
      simp [hab, hba, hne]
    · have heq : a = b := by
        by_contra hne
        rcases h.total a b hne with h1 | h1
        · exact hab h1
        · exact hba h1
      subst heq
      simp [h.irrefl]

theorem lexLess_strictTotal {α : Type} {lt : α → α → Bool} (h : StrictTotal lt) :
    StrictTotal (lexLess lt) := by
  refine ⟨?_, ?_, ?_⟩
  · intro l
    induction l with
    | nil => rfl
    | cons a as ih =>
      cases hl : lexLess lt (a :: as) (a :: as) with
      | false => rfl
      | true =>
        rcases (lexLess_cons_iff h a a as as).1 hl with h1 | ⟨_, h1⟩
        · rw [h.irrefl] at h1
          exact absurd h1 (by decide)
        · rw [ih] at h1
          exact absurd h1 (by decide)
  · intro l1
    induction l1 with
    | nil =>
      intro l2 l3 h12 h23
      cases l2 with
      | nil => simp [lexLess] at h12
      | cons b bs =>
        cases l3 with
        | nil => simp [lexLess] at h23
        | cons c cs => rfl
    | cons a as ih =>
      intro l2 l3 h12 h23
      cases l2 with
      | nil => simp [lexLess] at h12
      | cons b bs =>
        cases l3 with
        | nil => simp [lexLess] at h23
        | cons c cs =>
          rw [lexLess_cons_iff h] at h12 h23 ⊢
          rcases h12 with h1 | ⟨rfl, h1⟩
          · rcases h23 with h2 | ⟨rfl, _⟩
            · exact Or.inl (h.trans _ _ _ h1 h2)
            · exact Or.inl h1
          · rcases h23 with h2 | ⟨rfl, h2⟩
            · exact Or.inl h2
            · exact Or.inr ⟨rfl, ih _ _ h1 h2⟩
  · intro l1
    induction l1 with
    | nil =>
      intro l2 hne
      cases l2 with
      | nil => exact absurd rfl hne
      | cons b bs => exact Or.inl rfl
    | cons a as ih =>
      intro l2 hne
      cases l2 with
      | nil => exact Or.inr rfl
      | cons b bs =>
        rw [lexLess_cons_iff h, lexLess_cons_iff h]
        by_cases hab : a = b
        · subst hab
          have hne2 : as ≠ bs := fun e => hne (by rw [e])
          rcases ih bs hne2 with h1 | h1
          · exact Or.inl (Or.inr ⟨rfl, h1⟩)
          · exact Or.inr (Or.inr ⟨rfl, h1⟩)
        · rcases h.total a b hab with h1 | h1
          · exact Or.inl (Or.inl h1)
          · exact Or.inr (Or.inl h1)

theorem Char.eq_of_toNat_eq {a b : Char} (h : a.toNat = b.toNat) : a = b := by
  have ha := Char.ofNat_toNat a
  have hb := Char.ofNat_toNat b
  rw [← ha, ← hb, h]

theorem charLt_strictTotal : StrictTotal (fun x y : Char => decide (x.toNat < y.toNat)) := by
  refine ⟨?_, ?_, ?_⟩
  · intro a; simp
  · intro a b c h1 h2
    simp only [decide_eq_true_eq] at *
    omega
  · intro a b hne
    simp only [decide_eq_true_eq]
    have : a.toNat ≠ b.toNat := fun e => hne (Char.eq_of_toNat_eq e)
    omega

theorem strings.Less_strictTotal : StrictTotal strings.Less :=
  lexLess_strictTotal charLt_strictTotal

namespace SemVerSpec

theorem identLt_strictTotal : StrictTotal Ident.lt := by
  have hs := strings.Less_strictTotal
  refine ⟨?_, ?_, ?_⟩
  · intro a
    cases a with
    | numeric n => simp [Ident.lt]
    | alphanum s => simpa [Ident.lt] using hs.irrefl s
  · intro a b c h1 h2
    cases a <;> cases b <;> cases c <;> simp only [Ident.lt, decide_eq_true_eq] at * <;>
      first
        | omega
        | exact hs.trans _ _ _ h1 h2
        | exact absurd h1 (by decide)
        | exact absurd h2 (by decide)
  · intro a b hne
    cases a with
    | numeric n =>
      cases b with
      | numeric m =>
        have : n ≠ m := fun e => hne (by rw [e])
        simp only [Ident.lt, decide_eq_true_eq]
        omega
      | alphanum t => exact Or.inl rfl
    | alphanum s =>
      cases b with
      | numeric m => exact Or.inr rfl
      | alphanum t =>
        have : s ≠ t := fun e => hne (by rw [e])
        exact hs.total s t this

theorem preLt_strictTotal : StrictTotal preLt := by
  have hl := lexLess_strictTotal identLt_strictTotal
  refine ⟨?_, ?_, ?_⟩
  · intro a
    cases a with
    | nil => rfl
    | cons p ps => exact hl.irrefl _
  · intro a b c h1 h2
    cases a with
    | nil => simp [preLt] at h1
    | cons p ps =>
      cases b with
      | nil => simp [preLt] at h2
      | cons q qs =>
        cases c with
        | nil => rfl
        | cons r rs => exact hl.trans _ _ _ h1 h2
  · intro a b hne
    cases a with
    | nil =>
      cases b with
      | nil => exact absurd rfl hne
      | cons q qs => exact Or.inr rfl
    | cons p ps =>
      cases b with
      | nil => exact Or.inl rfl
      | cons q qs => exact hl.total _ _ hne

theorem semverLt_iff (a b : SemVer) :
    a.lt b = true ↔
      a.major < b.major ∨ (a.major = b.major ∧ (a.minor < b.minor ∨ (a.minor = b.minor ∧
        (a.patch < b.patch ∨ (a.patch = b.patch ∧ preLt a.pre b.pre = true))))) := by
  unfold SemVer.lt
  by_cases h1 : a.major = b.major
  · by_cases h2 : a.minor = b.minor
    · by_cases h3 : a.patch = b.patch
      · simp [h1, h2, h3]
      · simp [h1, h2, h3]
    · simp [h1, h2]
  · simp [h1]

theorem semverLt_strictTotal : StrictTotal SemVer.lt := by
  have hp := preLt_strictTotal
  refine ⟨?_, ?_, ?_⟩
  · intro a
    cases h : a.lt a with
    | false => rfl
    | true =>
      rw [semverLt_iff] at h
      rcases h with h | ⟨_, h | ⟨_, h | ⟨_, h⟩⟩⟩
      · omega
      · omega
      · omega
      · rw [hp.irrefl] at h
        exact absurd h (by decide)
  · intro a b c h1 h2
    rw [semverLt_iff] at h1 h2 ⊢
    rcases h1 with h1 | ⟨e1, h1 | ⟨e2, h1 | ⟨e3, h1⟩⟩⟩ <;>
      rcases h2 with h2 | ⟨f1, h2 | ⟨f2, h2 | ⟨f3, h2⟩⟩⟩ <;>
      first
        | (left; omega)
        | (right; refine ⟨by omega, ?_⟩; left; omega)
        | (right; refine ⟨by omega, ?_⟩; right; refine ⟨by omega, ?_⟩; left; omega)
        | (right; refine ⟨by omega, ?_⟩; right; refine ⟨by omega, ?_⟩; right;
           exact ⟨by omega, hp.trans _ _ _ h1 h2⟩)
  · intro a b hne
    rw [semverLt_iff, semverLt_iff]
    rcases Nat.lt_trichotomy a.major b.major with h | h | h
    · exact Or.inl (Or.inl h)
    · rcases Nat.lt_trichotomy a.minor b.minor with h2 | h2 | h2
      · exact Or.inl (Or.inr ⟨h, Or.inl h2⟩)
      · rcases Nat.lt_trichotomy a.patch b.patch with h3 | h3 | h3
        · exact Or.inl (Or.inr ⟨h, Or.inr ⟨h2, Or.inl h3⟩⟩)
        · have hpre : a.pre ≠ b.pre := by
            intro e
            apply hne
            cases a; cases b
            simp only [SemVer.mk.injEq]
            exact ⟨h, h2, h3, e⟩
          rcases hp.total _ _ hpre with h4 | h4
          · exact Or.inl (Or.inr ⟨h, Or.inr ⟨h2, Or.inr ⟨h3, h4⟩⟩⟩)
          · exact Or.inr (Or.inr ⟨h.symm, Or.inr ⟨h2.symm, Or.inr ⟨h3.symm, h4⟩⟩⟩)
        · exact Or.inr (Or.inr ⟨h.symm, Or.inr ⟨h2.symm, Or.inl h3⟩⟩)
      · exact Or.inr (Or.inr ⟨h.symm, Or.inl h2⟩)
    · exact Or.inr (Or.inl h)

end SemVerSpec

namespace strconv

theorem digitsVal_acc (cs : List Char) (n : Nat) :
    digitsVal cs n = n * 10 ^ cs.length + digitsVal cs 0 := by
  induction cs generalizing n with
  | nil => simp [digitsVal]
  | cons c cs ih =>
    simp only [digitsVal, List.length_cons]
    rw [ih (n * 10 + (c.toNat - 48)), ih (0 * 10 + (c.toNat - 48))]
    ring

theorem digitsVal_cons (c : Char) (cs : List Char) :
    digitsVal (c :: cs) 0 = (c.toNat - 48) * 10 ^ cs.length + digitsVal cs 0 := by
  simp only [digitsVal]
  rw [digitsVal_acc]
  simp

theorem digitsVal_lt (cs : List Char) (h : cs.all isDigit = true) :
    digitsVal cs 0 < 10 ^ cs.length := by
  induction cs with
  | nil => simp [digitsVal]
  | cons c cs ih =>
    simp only [List.all_cons, Bool.and_eq_true] at h
    have hc : c.toNat - 48 ≤ 9 := by
      have := h.1
      simp only [isDigit, Bool.and_eq_true, decide_eq_true_eq] at this
      omega
    have h1 := ih h.2
    rw [digitsVal_cons, List.length_cons, pow_succ]
    have h2 : (c.toNat - 48) * 10 ^ cs.length ≤ 9 * 10 ^ cs.length :=
      Nat.mul_le_mul_right _ hc
    omega

theorem digitsVal_inj_len (s : List Char) : ∀ o : List Char, s.length = o.length →
    s.all isDigit = true → o.all isDigit = true → digitsVal s 0 = digitsVal o 0 → s = o := by
  induction s with
  | nil =>
    intro o hl _ _ _
    cases o with
    | nil => rfl
    | cons d ds => simp at hl
  | cons c cs ih =>
    intro o hl hs ho hv
    cases o with
    | nil => simp at hl
    | cons d ds =>
      simp only [List.length_cons, Nat.add_right_cancel_iff] at hl
      simp only [List.all_cons, Bool.and_eq_true] at hs ho
      rw [digitsVal_cons, digitsVal_cons, hl] at hv
      have hrc := digitsVal_lt cs hs.2
      have hrd := digitsVal_lt ds ho.2
      rw [hl] at hrc
      have hm : 0 < 10 ^ ds.length := Nat.pow_pos (by decide)
      have e1 : ((c.toNat - 48) * 10 ^ ds.length + digitsVal cs 0) % 10 ^ ds.length
          = digitsVal cs 0 := by
        rw [Nat.add_comm, Nat.add_mul_mod_self_right]
        exact Nat.mod_eq_of_lt hrc
      have e2 : ((d.toNat - 48) * 10 ^ ds.length + digitsVal ds 0) % 10 ^ ds.length
          = digitsVal ds 0 := by
        rw [Nat.add_comm, Nat.add_mul_mod_self_right]
        exact Nat.mod_eq_of_lt hrd
      have hr : digitsVal cs 0 = digitsVal ds 0 := by rw [← e1, ← e2, hv]
      rw [hr] at hv
      have hq : (c.toNat - 48) * 10 ^ ds.length = (d.toNat - 48) * 10 ^ ds.length :=
        Nat.add_right_cancel hv
      have hcd : c.toNat - 48 = d.toNat - 48 := Nat.eq_of_mul_eq_mul_right hm hq
      have hc := hs.1
      have hd := ho.1
      simp only [isDigit, Bool.and_eq_true, decide_eq_true_eq] at hc hd
      have : c = d := Char.eq_of_toNat_eq (by omega)
      rw [this, ih ds hl hs.2 ho.2 hr]

theorem digitsVal_lt_of_length_lt (s o : List Char) (hs : s.all isDigit = true)
    (ho : o.all isDigit = true) (hne : s ≠ []) (hz : semver.startsZero o = false)
    (hl : s.length < o.length) : digitsVal s 0 < digitsVal o 0 := by
  cases o with
  | nil => simp at hl
  | cons d ds =>
    cases ds with
    | nil =>
      cases s with
      | nil => exact absurd rfl hne
      | cons c cs => simp at hl
    | cons e es =>
      simp only [semver.startsZero, beq_eq_false_iff_ne, ne_eq] at hz
      simp only [List.all_cons, Bool.and_eq_true] at ho
      have hd := ho.1
      simp only [isDigit, Bool.and_eq_true, decide_eq_true_eq] at hd
      have hd1 : 1 ≤ d.toNat - 48 := by omega
      have h1 := digitsVal_lt s hs
      rw [digitsVal_cons]
      have h2 : 10 ^ s.length ≤ 10 ^ (e :: es).length :=
        Nat.pow_le_pow_right (by decide) (by simp only [List.length_cons] at hl ⊢; omega)
      have h3 : 1 * 10 ^ (e :: es).length ≤ (d.toNat - 48) * 10 ^ (e :: es).length :=
        Nat.mul_le_mul_right _ hd1
      omega

theorem digitsVal_inj (s o : List Char) (hs : s.all isDigit = true)
    (ho : o.all isDigit = true) (hns : s ≠ []) (hno : o ≠ [])
    (hzs : semver.startsZero s = false) (hzo : semver.startsZero o = false)
    (hv : digitsVal s 0 = digitsVal o 0) : s = o := by
  rcases Nat.lt_trichotomy s.length o.length with h | h | h
  · have := digitsVal_lt_of_length_lt s o hs ho hns hzo h
    omega
  · exact digitsVal_inj_len s o h hs ho hv
  · have := digitsVal_lt_of_length_lt o s ho hs hno hzs h
    omega

theorem ParseUint_eq_some {s : List Char} {n : Nat} (h : ParseUint s = some n) :
    s ≠ [] ∧ s.all isDigit = true ∧ digitsVal s 0 = n ∧ n < 18446744073709551616 := by
  unfold ParseUint at h
  split_ifs at h with h1 h2 h3
  · simp only [Option.some.injEq] at h
    refine ⟨?_, ?_, h, h ▸ h3⟩
    · intro e
      rw [e] at h1
      exact h1 rfl
    · simpa using h2

theorem ParseUint_of_digits {s : List Char} (hne : s ≠ []) (hd : s.all isDigit = true)
    (hlt : digitsVal s 0 < 18446744073709551616) : ParseUint s = some (digitsVal s 0) := by
  unfold ParseUint
  have h1 : s.isEmpty = false := by
    cases s with
    | nil => exact absurd rfl hne
    | cons c cs => rfl
  simp [h1, hd, hlt]

theorem ParseUint_of_not_digits {s : List Char} (hd : s.all isDigit = false) :
    ParseUint s = none := by
  unfold ParseUint
  simp [hd]

end strconv

namespace semver

open SemVerSpec

theorem isEmpty_eq_false {α : Type} {l : List α} (h : l ≠ []) : l.isEmpty = false := by
  cases l with
  | nil => exact absurd rfl h
  | cons a as => rfl

theorem comparePrePart_eq_zero (s o : List Char) : comparePrePart s o = 0 ↔ s = o := by
  unfold comparePrePart
  by_cases h : s = o
  · simp [h]
  · simp only [h, if_false, iff_false]
    cases strconv.ParseUint o <;> cases strconv.ParseUint s <;> simp only [] <;>
      split_ifs <;> decide

theorem comparePrePart_pos (s o : List Char) (hs : s ≠ []) (ho : o ≠ []) :
    0 < comparePrePart s o ↔ Ident.lt (partKey o) (partKey s) = true := by
  unfold comparePrePart partKey
  by_cases h : s = o
  · subst h
    simp [identLt_strictTotal.irrefl]
  · simp only [h, if_false, isEmpty_eq_false hs, isEmpty_eq_false ho]
    cases ho2 : strconv.ParseUint o <;> cases hs2 : strconv.ParseUint s <;>
      simp only [Ident.lt, strings.Greater, decide_eq_true_eq]
    · by_cases h1 : strings.Less o s = true <;> simp [h1]
    · decide
    · decide
    · rename_i oi si
      by_cases h1 : oi < si <;> simp [h1]

theorem validPrePart_ne_nil {p : List Char} (h : validPrePart p = true) : p ≠ [] := by
  intro e
  subst e
  simp [validPrePart] at h

theorem partKey_inj {s o : List Char} (hs : validPrePart s = true)
    (ho : validPrePart o = true) (h : partKey s = partKey o) : s = o := by
  unfold partKey at h
  cases hs2 : strconv.ParseUint s with
  | none =>
    cases ho2 : strconv.ParseUint o with
    | none =>
      rw [hs2, ho2] at h
      simpa using h
    | some m =>
      rw [hs2, ho2] at h
      simp at h
  | some n =>
    cases ho2 : strconv.ParseUint o with
    | none =>
      rw [hs2, ho2] at h
      simp at h
    | some m =>
      rw [hs2, ho2] at h
      simp only [Ident.numeric.injEq] at h
      obtain ⟨hns, hds, hvs, _⟩ := strconv.ParseUint_eq_some hs2
      obtain ⟨hno, hdo, hvo, _⟩ := strconv.ParseUint_eq_some ho2
      have zs : startsZero s = false := by
        unfold validPrePart at hs
        have hc : containsOnly s num = true := hds
        rw [isEmpty_eq_false hns, hc] at hs
        simpa using hs
      have zo : startsZero o = false := by
        unfold validPrePart at ho
        have hc : containsOnly o num = true := hdo
        rw [isEmpty_eq_false hno, hc] at ho
        simpa using ho
      exact strconv.digitsVal_inj s o hds hdo hns hno zs zo (by rw [hvs, hvo, h])

theorem comparePartsLeft_not_pos (os : List (List Char))
    (ho : ∀ p ∈ os, validPrePart p = true) : ¬ 0 < comparePartsLeft os := by
  cases os with
  | nil => simp [comparePartsLeft]
  | cons o os =>
    have hne := validPrePart_ne_nil (ho o (List.mem_cons_self _ _))
    have h1 : comparePrePart [] o = -1 := by
      unfold comparePrePart
      have : ([] : List Char) ≠ o := fun e => hne e.symm
      simp [this, isEmpty_eq_false hne]
    simp [comparePartsLeft, h1]

theorem compareParts_pos (ss : List (List Char)) : ∀ os : List (List Char),
    (∀ p ∈ ss, validPrePart p = true) → (∀ p ∈ os, validPrePart p = true) →
    (0 < compareParts ss os ↔ lexLess Ident.lt (os.map partKey) (ss.map partKey) = true) := by
  induction ss with
  | nil =>
    intro os _ ho
    rw [compareParts]
    have := comparePartsLeft_not_pos os ho
    cases os with
    | nil => simp [lexLess, comparePartsLeft]
    | cons o os => simp [lexLess, this]
  | cons s ss ih =>
    intro os hs ho
    have hsv := hs s (List.mem_cons_self _ _)
    have hsne := validPrePart_ne_nil hsv
    cases os with
    | nil =>
      have h1 : comparePrePart s [] = 1 := by
        unfold comparePrePart
        simp [hsne, isEmpty_eq_false hsne]
      simp [compareParts, h1, lexLess]
    | cons o os =>
      have hov := ho o (List.mem_cons_self _ _)
      have hone := validPrePart_ne_nil hov
      rw [compareParts, List.map_cons, List.map_cons,
        lexLess_cons_iff identLt_strictTotal]
      by_cases heq : s = o
      · subst heq
        have h0 : comparePrePart s s = 0 := (comparePrePart_eq_zero s s).2 rfl
        simp only [h0, ne_eq, not_true_eq_false, if_false, identLt_strictTotal.irrefl,
          true_and, false_or, Bool.false_eq_true]
        exact ih os (fun p hp => hs p (List.mem_cons_of_mem _ hp))
          (fun p hp => ho p (List.mem_cons_of_mem _ hp))
      · have h0 : comparePrePart s o ≠ 0 := fun e => heq ((comparePrePart_eq_zero s o).1 e)
        have hk : partKey o ≠ partKey s := fun e => heq (partKey_inj hsv hov e.symm)
        simp only [h0, ne_eq, not_false_eq_true, if_true, hk, false_and, or_false]
        exact comparePrePart_pos s o hsne hone

end semver

namespace semver

open SemVerSpec

theorem Split_ne_nil (sep : Char) (s : List Char) : strings.Split sep s ≠ [] := by
  induction s with
  | nil => simp [strings.Split]
  | cons c cs ih =>
    rw [strings.Split]
    split_ifs
    · simp
    · split <;> simp

theorem compareSegment_cases (v o : Nat) :
    (v < o ∧ compareSegment v o = -1) ∨ (v = o ∧ compareSegment v o = 0) ∨
      (o < v ∧ compareSegment v o = 1) := by
  unfold compareSegment
  rcases Nat.lt_trichotomy v o with h | h | h
  · exact Or.inl ⟨h, by simp [h]⟩
  · exact Or.inr (Or.inl ⟨h, by simp [h]⟩)
  · refine Or.inr (Or.inr ⟨h, ?_⟩)
    have : ¬ v < o := by omega
    simp [this, h]

theorem preLt_keys (v o : Version) (hv : PreOk v.pre) (ho : PreOk o.pre)
    (hne : ¬ (v.pre.isEmpty && o.pre.isEmpty) = true) :
    (0 < (if v.pre.isEmpty then (1 : Int) else if o.pre.isEmpty then -1
        else comparePrerelease v.pre o.pre)) ↔
      preLt (keyOf o).pre (keyOf v).pre = true := by
  simp only [keyOf]
  cases hvp : v.pre with
  | nil =>
    cases hop : o.pre with
    | nil => simp [hvp, hop] at hne
    | cons c cs =>
      have hs := Split_ne_nil '.' (c :: cs)
      cases hsp : strings.Split '.' (c :: cs) with
      | nil => exact absurd hsp hs
      | cons q qs => simp [preLt]
  | cons d ds =>
    cases hop : o.pre with
    | nil => simp [preLt]
    | cons c cs =>
      have hvv : validatePrerelease (d :: ds) = true := by
        rcases hv with h | h
        · rw [hvp] at h; exact absurd h (by simp)
        · rw [hvp] at h; exact h
      have hov : validatePrerelease (c :: cs) = true := by
        rcases ho with h | h
        · rw [hop] at h; exact absurd h (by simp)
        · rw [hop] at h; exact h
      simp only [validatePrerelease, List.all_eq_true] at hvv hov
      have key := compareParts_pos _ _ hvv hov
      have hs := Split_ne_nil '.' (c :: cs)
      have hs2 := Split_ne_nil '.' (d :: ds)
      simp only [List.isEmpty_cons, Bool.false_eq_true, if_false, comparePrerelease]
      rw [key]
      cases hsp : strings.Split '.' (c :: cs) with
      | nil => exact absurd hsp hs
      | cons q qs =>
        cases hsp2 : strings.Split '.' (d :: ds) with
        | nil => exact absurd hsp2 hs2
        | cons r rs => simp [preLt]

/-- The library's `GreaterThan` is the precedence order of section 11 on the
identifiers as `comparePrePart` classifies them. -/
theorem GreaterThan_eq (v o : Version) (hv : PreOk v.pre) (ho : PreOk o.pre) :
    v.GreaterThan o = (keyOf o).lt (keyOf v) := by
  rw [Bool.eq_iff_iff, semverLt_iff]
  unfold Version.GreaterThan Version.Compare
  simp only [decide_eq_true_eq, gt_iff_lt]
  have e1 : (keyOf o).major = o.major := rfl
  have e2 : (keyOf v).major = v.major := rfl
  have e3 : (keyOf o).minor = o.minor := rfl
  have e4 : (keyOf v).minor = v.minor := rfl
  have e5 : (keyOf o).patch = o.patch := rfl
  have e6 : (keyOf v).patch = v.patch := rfl
  rw [e1, e2, e3, e4, e5, e6]
  rcases compareSegment_cases v.major o.major with ⟨h, c⟩ | ⟨h, c⟩ | ⟨h, c⟩
  · rw [c]; simp; omega
  · rw [c]
    simp only [ne_eq, not_true_eq_false, if_false]
    rcases compareSegment_cases v.minor o.minor with ⟨h2, c2⟩ | ⟨h2, c2⟩ | ⟨h2, c2⟩
    · rw [c2]; simp; omega
    · rw [c2]
      simp only [ne_eq, not_true_eq_false, if_false]
      rcases compareSegment_cases v.patch o.patch with ⟨h3, c3⟩ | ⟨h3, c3⟩ | ⟨h3, c3⟩
      · rw [c3]; simp; omega
      · rw [c3]
        simp only [ne_eq, not_true_eq_false, if_false]
        by_cases hb : (v.pre.isEmpty && o.pre.isEmpty) = true
        · have hvn : v.pre = [] := by
            simp only [Bool.and_eq_true, List.isEmpty_iff] at hb; exact hb.1
          have hon : o.pre = [] := by
            simp only [Bool.and_eq_true, List.isEmpty_iff] at hb; exact hb.2
          simp [hb, keyOf, hvn, hon, preLt]
          omega
        · simp only [hb, Bool.false_eq_true, if_false]
          rw [preLt_keys v o hv ho hb]
          constructor
          · intro hp
            exact Or.inr ⟨h.symm, Or.inr ⟨h2.symm, Or.inr ⟨h3.symm, hp⟩⟩⟩
          · rintro (h' | ⟨_, h' | ⟨_, h' | ⟨_, h'⟩⟩⟩)
            · omega
            · omega
            · omega
            · exact h'
      · rw [c3]
        simp only [ne_eq, one_ne_zero, not_false_eq_true, if_true, zero_lt_one, true_iff]
        exact Or.inr ⟨h.symm, Or.inr ⟨h2.symm, Or.inl h3⟩⟩
    · rw [c2]
      simp only [ne_eq, one_ne_zero, not_false_eq_true, if_true, zero_lt_one, true_iff]
      exact Or.inr ⟨h.symm, Or.inl h2⟩
  · rw [c]
    simp only [ne_eq, one_ne_zero, not_false_eq_true, if_true, zero_lt_one, true_iff]
    exact Or.inl h

theorem StrictNewVersion_preOk {s : List Char} {v : Version}
    (h : StrictNewVersion s = some v) : PreOk v.pre := by
  unfold StrictNewVersion at h
  split_ifs at h
  split at h
  · split at h
    · exact absurd h (by simp)
    · rename_i p2a metadata hmeta
      split at h
      · exact absurd h (by simp)
      · rename_i p2b pre hpre
        split_ifs at h
        split at h
        · rename_i major minor patch _ _ _
          simp only [Option.some.injEq] at h
          subst h
          show PreOk pre
          split at hpre
          · split_ifs at hpre with hval
            simp only [Option.some.injEq, Prod.mk.injEq] at hpre
            exact Or.inr (hpre.2 ▸ hval)
          · simp only [Option.some.injEq, Prod.mk.injEq] at hpre
            exact Or.inl hpre.2.symm
        · exact absurd h (by simp)
  · exact absurd h (by simp)

theorem partKey_eq_identOf (p : List Char)
    (h : (!(p.all strconv.isDigit) || decide (strconv.digitsVal p 0 < 18446744073709551616))
      = true) : partKey p = identOf p := by
  unfold partKey identOf
  cases p with
  | nil => simp [strconv.ParseUint]
  | cons c cs =>
    cases hd : (c :: cs).all strconv.isDigit with
    | false =>
      rw [strconv.ParseUint_of_not_digits hd]
      simp
    | true =>
      rw [hd] at h
      simp only [Bool.not_true, Bool.false_or, decide_eq_true_eq] at h
      rw [strconv.ParseUint_of_digits (by simp) hd h]
      simp

theorem keyOf_eq_ofVersion (v : Version) (h : numericFits v.pre = true) :
    keyOf v = ofVersion v := by
  unfold keyOf ofVersion identsOf
  congr 1
  split_ifs
  · rfl
  · apply List.map_congr_left
    intro p hp
    simp only [numericFits, List.all_eq_true] at h
    exact partKey_eq_identOf p (h p hp)

end semver

theorem newer_of_semver {a b : String} {va vb : semver.Version}
    (ha : semver.StrictNewVersion a.data = some va)
    (hb : semver.StrictNewVersion b.data = some vb) :
    newer a b = (semver.keyOf vb).lt (semver.keyOf va) := by
  unfold newer
  rw [ha, hb]
  exact semver.GreaterThan_eq va vb (semver.StrictNewVersion_preOk ha)
    (semver.StrictNewVersion_preOk hb)

theorem newer_fallback {a b : String}
    (h : semver.StrictNewVersion a.data = none ∨ semver.StrictNewVersion b.data = none) :
    newer a b = strings.Greater a.data b.data := by
  unfold newer
  rcases h with h | h
  · rw [h]
  · rw [h]
    cases semver.StrictNewVersion a.data <;> rfl

/-! ### The comparator -/

theorem strings.Join_Split (sep : Char) (s : List Char) :
    strings.Join sep (strings.Split sep s) = s := by
  induction s with
  | nil => rfl
  | cons c cs ih =>
    rw [strings.Split]
    split_ifs with h
    · have hne := semver.Split_ne_nil sep cs
      cases hs : strings.Split sep cs with
      | nil => exact absurd hs hne
      | cons p ps =>
        rw [hs] at ih
        rw [strings.Join, ih, h]
        rfl
    · cases hs : strings.Split sep cs with
      | nil => exact absurd hs (semver.Split_ne_nil sep cs)
      | cons p ps =>
        rw [hs] at ih
        simp only
        cases ps with
        | nil =>
          simp only [strings.Join] at ih ⊢
          rw [ih]
        | cons q qs =>
          simp only [strings.Join] at ih ⊢
          rw [← ih]
          rfl

theorem strings.Split_inj (sep : Char) {s t : List Char}
    (h : strings.Split sep s = strings.Split sep t) : s = t := by
  rw [← strings.Join_Split sep s, ← strings.Join_Split sep t, h]

theorem semver.map_partKey_inj : ∀ {ps qs : List (List Char)},
    (∀ p ∈ ps, semver.validPrePart p = true) → (∀ q ∈ qs, semver.validPrePart q = true) →
    ps.map semver.partKey = qs.map semver.partKey → ps = qs := by
  intro ps
  induction ps with
  | nil =>
    intro qs _ _ h
    cases qs with
    | nil => rfl
    | cons q qs => simp at h
  | cons p ps ih =>
    intro qs hp hq h
    cases qs with
    | nil => simp at h
    | cons q qs =>
      simp only [List.map_cons, List.cons.injEq] at h
      have e1 := semver.partKey_inj (hp p (List.mem_cons_self _ _))
        (hq q (List.mem_cons_self _ _)) h.1
      have e2 := ih (fun x hx => hp x (List.mem_cons_of_mem _ hx))
        (fun x hx => hq x (List.mem_cons_of_mem _ hx)) h.2
      rw [e1, e2]

theorem semver.keyOf_inj {v o : semver.Version} (hv : semver.PreOk v.pre)
    (ho : semver.PreOk o.pre) (h : semver.keyOf v = semver.keyOf o) :
    v.major = o.major ∧ v.minor = o.minor ∧ v.patch = o.patch ∧ v.pre = o.pre := by
  unfold semver.keyOf at h
  simp only [SemVerSpec.SemVer.mk.injEq] at h
  obtain ⟨h1, h2, h3, h4⟩ := h
  refine ⟨h1, h2, h3, ?_⟩
  cases hvp : v.pre with
  | nil =>
    cases hop : o.pre with
    | nil => rfl
    | cons c cs =>
      rw [hvp, hop] at h4
      simp only [List.isEmpty_nil, if_true, List.isEmpty_cons, Bool.false_eq_true,
        if_false] at h4
      have := semver.Split_ne_nil '.' (c :: cs)
      cases hs : strings.Split '.' (c :: cs) with
      | nil => exact absurd hs this
      | cons q qs => rw [hs] at h4; simp at h4
  | cons d ds =>
    cases hop : o.pre with
    | nil =>
      rw [hvp, hop] at h4
      simp only [List.isEmpty_nil, if_true, List.isEmpty_cons, Bool.false_eq_true,
        if_false] at h4
      have := semver.Split_ne_nil '.' (d :: ds)
      cases hs : strings.Split '.' (d :: ds) with
      | nil => exact absurd hs this
      | cons q qs => rw [hs] at h4; simp at h4
    | cons c cs =>
      rw [hvp, hop] at h4
      simp only [List.isEmpty_cons, Bool.false_eq_true, if_false] at h4
      have hvv : semver.validatePrerelease (d :: ds) = true := by
        rcases hv with x | x
        · rw [hvp] at x; exact absurd x (by simp)
        · rw [hvp] at x; exact x
      have hov : semver.validatePrerelease (c :: cs) = true := by
        rcases ho with x | x
        · rw [hop] at x; exact absurd x (by simp)
        · rw [hop] at x; exact x
      simp only [semver.validatePrerelease, List.all_eq_true] at hvv hov
      exact strings.Split_inj '.' (semver.map_partKey_inj hvv hov h4)

theorem newer_irrefl (a : String) : newer a a = false := by
  cases ha : semver.StrictNewVersion a.data with
  | none =>
    rw [newer_fallback (Or.inl ha)]
    exact strings.Less_strictTotal.irrefl _
  | some va =>
    rw [newer_of_semver ha ha]
    exact SemVerSpec.semverLt_strictTotal.irrefl _

theorem newer_asymm (a b : String) (h : newer a b = true) : newer b a = false := by
  cases ha : semver.StrictNewVersion a.data with
  | none =>
    rw [newer_fallback (Or.inl ha)] at h
    rw [newer_fallback (Or.inr ha)]
    exact strings.Less_strictTotal.asymm _ _ h
  | some va =>
    cases hb : semver.StrictNewVersion b.data with
    | none =>
      rw [newer_fallback (Or.inr hb)] at h
      rw [newer_fallback (Or.inl hb)]
      exact strings.Less_strictTotal.asymm _ _ h
    | some vb =>
      rw [newer_of_semver ha hb] at h
      rw [newer_of_semver hb ha]
      exact SemVerSpec.semverLt_strictTotal.asymm _ _ h

theorem isSemver_eq_true {a : String} (h : isSemver a = true) :
    ∃ va, semver.StrictNewVersion a.data = some va := by
  unfold isSemver at h
  exact Option.isSome_iff_exists.1 h

theorem isSemver_eq_false {a : String} (h : isSemver a = false) :
    semver.StrictNewVersion a.data = none := by
  unfold isSemver at h
  cases hs : semver.StrictNewVersion a.data with
  | none => rfl
  | some v => rw [hs] at h; simp at h

theorem newer_trans_semver {a b c : String} (ha : isSemver a = true) (hb : isSemver b = true)
    (hc : isSemver c = true) (h1 : newer a b = true) (h2 : newer b c = true) :
    newer a c = true := by
  obtain ⟨va, ea⟩ := isSemver_eq_true ha
  obtain ⟨vb, eb⟩ := isSemver_eq_true hb
  obtain ⟨vc, ec⟩ := isSemver_eq_true hc
  rw [newer_of_semver ea eb] at h1
  rw [newer_of_semver eb ec] at h2
  rw [newer_of_semver ea ec]
  exact SemVerSpec.semverLt_strictTotal.trans _ _ _ h2 h1

theorem newer_negtrans_semver {a b c : String} (ha : isSemver a = true)
    (hb : isSemver b = true) (hc : isSemver c = true) (h : newer a c = true) :
    newer a b = true ∨ newer b c = true := by
  obtain ⟨va, ea⟩ := isSemver_eq_true ha
  obtain ⟨vb, eb⟩ := isSemver_eq_true hb
  obtain ⟨vc, ec⟩ := isSemver_eq_true hc
  rw [newer_of_semver ea ec] at h
  rw [newer_of_semver ea eb, newer_of_semver eb ec]
  have hst := SemVerSpec.semverLt_strictTotal
  by_cases hk : semver.keyOf vb = semver.keyOf vc
  · rw [hk]
    exact Or.inl h
  · rcases hst.total _ _ hk with h1 | h1
    · exact Or.inl (hst.trans _ _ _ h1 h)
    · exact Or.inr h1

theorem newer_trans_fallback {a b c : String}
    (hab : isSemver a = false ∨ isSemver b = false)
    (hbc : isSemver b = false ∨ isSemver c = false)
    (hac : isSemver a = false ∨ isSemver c = false)
    (h1 : newer a b = true) (h2 : newer b c = true) : newer a c = true := by
  rw [newer_fallback (hab.imp isSemver_eq_false isSemver_eq_false)] at h1
  rw [newer_fallback (hbc.imp isSemver_eq_false isSemver_eq_false)] at h2
  rw [newer_fallback (hac.imp isSemver_eq_false isSemver_eq_false)]
  exact strings.Less_strictTotal.trans _ _ _ h2 h1

theorem newer_total (a b : String) (hne : a ≠ b) :
    newer a b = true ∨ newer b a = true ∨ sameVersion a b = true := by
  have hdata : a.data ≠ b.data := fun e => hne (String.ext e)
  cases ha : semver.StrictNewVersion a.data with
  | none =>
    rw [newer_fallback (Or.inl ha), newer_fallback (Or.inr ha)]
    rcases strings.Less_strictTotal.total _ _ hdata with h | h
    · exact Or.inr (Or.inl h)
    · exact Or.inl h
  | some va =>
    cases hb : semver.StrictNewVersion b.data with
    | none =>
      rw [newer_fallback (Or.inr hb), newer_fallback (Or.inl hb)]
      rcases strings.Less_strictTotal.total _ _ hdata with h | h
      · exact Or.inr (Or.inl h)
      · exact Or.inl h
    | some vb =>
      rw [newer_of_semver ha hb, newer_of_semver hb ha]
      by_cases hk : semver.keyOf va = semver.keyOf vb
      · obtain ⟨e1, e2, e3, e4⟩ := semver.keyOf_inj (semver.StrictNewVersion_preOk ha)
          (semver.StrictNewVersion_preOk hb) hk
        refine Or.inr (Or.inr ?_)
        unfold sameVersion
        rw [ha, hb]
        simp [e1, e2, e3, e4]
      · rcases SemVerSpec.semverLt_strictTotal.total _ _ hk with h | h
        · exact Or.inr (Or.inl h)
        · exact Or.inl h

/-- C10 (amended). `newer` is irreflexive and asymmetric on all tag names. It
is transitive on three tags that `semver.StrictNewVersion` accepts, and on three
tags of which every pair has a member it rejects. For distinct tags at least
one of `newer a b`, `newer b a` holds unless both are accepted and differ in
their build metadata only. -/
theorem newer_order_properties (a b c : String) :
    newer a a = false ∧
    (newer a b = true → newer b a = false) ∧
    ((isSemver a = true ∧ isSemver b = true ∧ isSemver c = true) →
      newer a b = true → newer b c = true → newer a c = true) ∧
    (((isSemver a = false ∨ isSemver b = false) ∧ (isSemver b = false ∨ isSemver c = false) ∧
        (isSemver a = false ∨ isSemver c = false)) →
      newer a b = true → newer b c = true → newer a c = true) ∧
    (a ≠ b → newer a b = true ∨ newer b a = true ∨ sameVersion a b = true) :=
  ⟨newer_irrefl a, newer_asymm a b,
    fun h => newer_trans_semver h.1 h.2.1 h.2.2,
    fun h => newer_trans_fallback h.1 h.2.1 h.2.2,
    newer_total a b⟩

theorem newer_order_properties_witness :
    newer "1.10.0" "1.10.0" = false ∧
    (newer "1.10.0" "1.9.0" = true → newer "1.9.0" "1.10.0" = false) ∧
    ((isSemver "1.10.0" = true ∧ isSemver "1.9.0" = true ∧ isSemver "1.9.0-rc.1" = true) →
      newer "1.10.0" "1.9.0" = true → newer "1.9.0" "1.9.0-rc.1" = true →
        newer "1.10.0" "1.9.0-rc.1" = true) ∧
    (((isSemver "1.10.0" = false ∨ isSemver "1.9.0" = false) ∧
        (isSemver "1.9.0" = false ∨ isSemver "1.9.0-rc.1" = false) ∧
        (isSemver "1.10.0" = false ∨ isSemver "1.9.0-rc.1" = false)) →
      newer "1.10.0" "1.9.0" = true → newer "1.9.0" "1.9.0-rc.1" = true →
        newer "1.10.0" "1.9.0-rc.1" = true) ∧
    ("1.10.0" ≠ "1.9.0" → newer "1.10.0" "1.9.0" = true ∨ newer "1.9.0" "1.10.0" = true ∨
      sameVersion "1.10.0" "1.9.0" = true) ∧
    isSemver "1.10.0" = true ∧ isSemver "1.9.0" = true ∧ isSemver "1.9.0-rc.1" = true ∧
    newer "1.10.0" "1.9.0" = true ∧ newer "1.9.0" "1.9.0-rc.1" = true :=
  ⟨(newer_order_properties "1.10.0" "1.9.0" "1.9.0-rc.1").1,
   (newer_order_properties "1.10.0" "1.9.0" "1.9.0-rc.1").2.1,
   (newer_order_properties "1.10.0" "1.9.0" "1.9.0-rc.1").2.2.1,
   (newer_order_properties "1.10.0" "1.9.0" "1.9.0-rc.1").2.2.2.1,
   (newer_order_properties "1.10.0" "1.9.0" "1.9.0-rc.1").2.2.2.2,
   by decide, by decide, by decide, by decide, by decide⟩

/-- C10 (counterexample). Transitivity fails on the mixed tags `1.10.0`, `1.9.0`,
`1.5`, and the distinct tags `1.0.0+a`, `1.0.0+b` are not ordered either way. -/
theorem newer_is_not_a_strict_total_order :
    (newer "1.10.0" "1.9.0" = true ∧ newer "1.9.0" "1.5" = true ∧
      newer "1.10.0" "1.5" = false) ∧
    ("1.0.0+a" ≠ "1.0.0+b" ∧ newer "1.0.0+a" "1.0.0+b" = false ∧
      newer "1.0.0+b" "1.0.0+a" = false) := by
  decide

namespace sort

theorem insertLeft_perm {α : Type} (less : α → α → Bool) (x : α) (l : List α) :
    (insertLeft less x l).Perm (x :: l) := by
  induction l with
  | nil => exact List.Perm.refl _
  | cons y ys ih =>
    rw [insertLeft]
    split_ifs
    · exact (List.Perm.cons y ih).trans (List.Perm.swap x y ys)
    · exact List.Perm.refl _

theorem insertionSortLoop_perm {α : Type} (less : α → α → Bool) (xs : List α) :
    ∀ done : List α, (insertionSortLoop less done xs).Perm (done ++ xs) := by
  induction xs with
  | nil =>
    intro done
    simp [insertionSortLoop]
  | cons x xs ih =>
    intro done
    rw [insertionSortLoop]
    refine (ih _).trans ?_
    exact ((insertLeft_perm less x done).append_right xs).trans
      (List.perm_middle.symm)

theorem insertionSort_perm {α : Type} (less : α → α → Bool) (xs : List α) :
    (insertionSortLessFunc less xs).Perm xs := by
  simpa [insertionSortLessFunc] using insertionSortLoop_perm less xs []

theorem insertionSort_permutes : Permutes insertionSortLessFunc :=
  fun less xs => insertionSort_perm less xs

theorem insertLeft_pairwise (less : String → String → Bool) (univ : List String)
    (h : StrictWeakOn less univ) (x : String) (hx : x ∈ univ) (l : List String)
    (hl : ∀ a ∈ l, a ∈ univ) (hp : l.Pairwise (fun a b => less a b = false)) :
    (insertLeft less x l).Pairwise (fun a b => less a b = false) := by
  obtain ⟨hirr, htr, hneg⟩ := h
  induction l with
  | nil => simp [insertLeft]
  | cons y ys ih =>
    have hy := hl y (List.mem_cons_self _ _)
    have hys : ∀ a ∈ ys, a ∈ univ := fun a ha => hl a (List.mem_cons_of_mem _ ha)
    rw [List.pairwise_cons] at hp
    rw [insertLeft]
    split_ifs with hxy
    · rw [List.pairwise_cons]
      refine ⟨?_, ih hys hp.2⟩
      intro w hw
      rcases (List.mem_cons.1 ((insertLeft_perm less x ys).subset hw)) with e | hw2
      · subst e
        cases hyx : less y w with
        | false => rfl
        | true =>
          have := htr w hx y hy w hx hxy hyx
          rw [hirr w hx] at this
          exact absurd this (by decide)
      · exact hp.1 w hw2
    · rw [List.pairwise_cons]
      refine ⟨?_, List.pairwise_cons.2 hp⟩
      intro w hw
      rcases List.mem_cons.1 hw with e | hw2
      · subst e
        exact Bool.eq_false_iff.2 hxy
      · cases hxw : less x w with
        | false => rfl
        | true =>
          rcases hneg x hx y hy w (hys w hw2) hxw with h1 | h1
          · exact absurd h1 hxy
          · rw [hp.1 w hw2] at h1
            exact absurd h1 (by decide)

theorem insertionSortLoop_pairwise (less : String → String → Bool) (univ : List String)
    (h : StrictWeakOn less univ) (xs : List String) :
    ∀ done : List String, (∀ a ∈ done, a ∈ univ) → (∀ a ∈ xs, a ∈ univ) →
      done.Pairwise (fun a b => less a b = false) →
      (insertionSortLoop less done xs).Pairwise (fun a b => less b a = false) := by
  induction xs with
  | nil =>
    intro done _ _ hp
    rw [insertionSortLoop, List.pairwise_reverse]
    exact hp
  | cons x xs ih =>
    intro done hd hxs hp
    rw [insertionSortLoop]
    have hx := hxs x (List.mem_cons_self _ _)
    refine ih _ ?_ (fun a ha => hxs a (List.mem_cons_of_mem _ ha))
      (insertLeft_pairwise less univ h x hx done hd hp)
    intro a ha
    rcases List.mem_cons.1 ((insertLeft_perm less x done).subset ha) with e | h2
    · exact e ▸ hx
    · exact hd a h2

/-- The insertion sort of the standard library meets the contract of
`sort.Slice`. -/
theorem insertionSort_sorts : Sorts insertionSortLessFunc := by
  refine ⟨insertionSort_permutes, ?_⟩
  intro less xs h
  exact insertionSortLoop_pairwise less xs h xs [] (by simp) (fun a ha => ha)
    List.Pairwise.nil

end sort

/-! ### The producer loops -/

theorem sendJob_next {σ : Type} (srv : Server σ) (workers : Int) (hw : 0 < workers)
    (j : Job) (r : Run σ) :
    sendJob srv workers j r =
      .next (deleteManifest srv j.repo j.digest { r with jobs := r.jobs ++ [j] }).2 := by
  unfold sendJob
  have : ¬ workers ≤ 0 := by omega
  simp [this]

theorem sendJob_parked {σ : Type} (srv : Server σ) (workers : Int) (hw : workers ≤ 0)
    (j : Job) (r : Run σ) : sendJob srv workers j r = .parked r := by
  unfold sendJob
  simp [hw]

theorem pruneCandidates_next {σ : Type} (srv : Server σ) (workers : Int) (hw : 0 < workers)
    (repo : String) (cs : List String) :
    ∀ r : Run σ, ∃ r1, pruneCandidates srv workers repo cs r = .next r1 := by
  induction cs with
  | nil => intro r; exact ⟨r, rfl⟩
  | cons tag rest ih =>
    intro r
    rw [pruneCandidates]
    cases h : (manifestDigest srv repo tag r).1 with
    | error e =>
      have : manifestDigest srv repo tag r = (.error e, (manifestDigest srv repo tag r).2) := by
        rw [← h]
      rw [this]
      exact ih _
    | ok d =>
      have : manifestDigest srv repo tag r = (.ok d, (manifestDigest srv repo tag r).2) := by
        rw [← h]
      rw [this]
      simp only [sendJob_next srv workers hw]
      exact ih _

theorem pruneRepos_next {σ : Type} (srv : Server σ)
    (Slice : (String → String → Bool) → List String → List String)
    (keepN : Nat) (workers : Int) (hw : 0 < workers) (repos : List String) :
    ∀ r : Run σ, ∃ r1, pruneRepos srv Slice keepN workers repos r = .next r1 := by
  induction repos with
  | nil => intro r; exact ⟨r, rfl⟩
  | cons repo rest ih =>
    intro r
    rw [pruneRepos]
    cases h : (tagsList srv repo r).1 with
    | error e =>
      have : tagsList srv repo r = (.error e, (tagsList srv repo r).2) := by rw [← h]
      rw [this]
      exact ih _
    | ok tags =>
      have : tagsList srv repo r = (.ok tags, (tagsList srv repo r).2) := by rw [← h]
      rw [this]
      simp only
      split_ifs
      · exact ih _
      · obtain ⟨r2, h2⟩ := pruneCandidates_next srv workers hw repo
          (candidates Slice keepN tags) (tagsList srv repo r).2
        rw [h2]
        exact ih _

theorem LogGrows.refl {σ : Type} (r : Run σ) : LogGrows r r := ⟨[], by simp, by simp⟩

theorem LogGrows.trans {σ : Type} {a b c : Run σ} (h1 : LogGrows a b) (h2 : LogGrows b c) :
    LogGrows a c := by
  obtain ⟨c1, e1, n1⟩ := h1
  obtain ⟨c2, e2, n2⟩ := h2
  refine ⟨c1 ++ c2, by rw [e2, e1, List.append_assoc], ?_⟩
  intro hm
  rcases List.mem_append.1 hm with h | h
  · exact n1 h
  · exact n2 h

theorem manifestDigest_log {σ : Type} (srv : Server σ) (repo tag : String) (r : Run σ) :
    LogGrows r (manifestDigest srv repo tag r).2 :=
  ⟨[Call.manifestDigest repo tag], rfl, by simp⟩

theorem tagsList_log {σ : Type} (srv : Server σ) (repo : String) (r : Run σ) :
    LogGrows r (tagsList srv repo r).2 :=
  ⟨[Call.tagsList repo], rfl, by simp⟩

theorem catalog_log {σ : Type} (srv : Server σ) (r : Run σ) :
    LogGrows r (catalog srv r).2 :=
  ⟨[Call.catalog], rfl, by simp⟩

theorem sendJob_log {σ : Type} (srv : Server σ) (workers : Int) (j : Job) (r : Run σ) :
    LogGrows r (sendJob srv workers j r).run := by
  unfold sendJob
  split_ifs
  · exact LogGrows.refl r
  · exact ⟨[Call.deleteManifest j.repo j.digest], rfl, by simp⟩

theorem pruneCandidates_log {σ : Type} (srv : Server σ) (workers : Int)
    (repo : String) (cs : List String) :
    ∀ r : Run σ, LogGrows r (pruneCandidates srv workers repo cs r).run := by
  induction cs with
  | nil => intro r; exact LogGrows.refl r
  | cons tag rest ih =>
    intro r
    rw [pruneCandidates]
    have hl := manifestDigest_log srv repo tag r
    cases h : (manifestDigest srv repo tag r).1 with
    | error e =>
      have : manifestDigest srv repo tag r = (.error e, (manifestDigest srv repo tag r).2) := by
        rw [← h]
      rw [this]
      exact hl.trans (ih _)
    | ok d =>
      have : manifestDigest srv repo tag r = (.ok d, (manifestDigest srv repo tag r).2) := by
        rw [← h]
      rw [this]
      simp only
      have hs := sendJob_log srv workers ⟨repo, tag, d⟩ (manifestDigest srv repo tag r).2
      cases h2 : sendJob srv workers ⟨repo, tag, d⟩ (manifestDigest srv repo tag r).2 with
      | parked r2 =>
        rw [h2] at hs
        exact hl.trans hs
      | next r2 =>
        rw [h2] at hs
        exact (hl.trans hs).trans (ih _)

theorem pruneRepos_log {σ : Type} (srv : Server σ)
    (Slice : (String → String → Bool) → List String → List String)
    (keepN : Nat) (workers : Int) (repos : List String) :
    ∀ r : Run σ, LogGrows r (pruneRepos srv Slice keepN workers repos r).run := by
  induction repos with
  | nil => intro r; exact LogGrows.refl r
  | cons repo rest ih =>
    intro r
    rw [pruneRepos]
    have hl := tagsList_log srv repo r
    cases h : (tagsList srv repo r).1 with
    | error e =>
      have : tagsList srv repo r = (.error e, (tagsList srv repo r).2) := by rw [← h]
      rw [this]
      exact hl.trans (ih _)
    | ok tags =>
      have : tagsList srv repo r = (.ok tags, (tagsList srv repo r).2) := by rw [← h]
      rw [this]
      simp only
      split_ifs
      · exact hl.trans (ih _)
      · have hc := pruneCandidates_log srv workers repo (candidates Slice keepN tags)
          (tagsList srv repo r).2
        cases h2 : pruneCandidates srv workers repo (candidates Slice keepN tags)
            (tagsList srv repo r).2 with
        | parked r2 =>
          rw [h2] at hc
          exact hl.trans hc
        | next r2 =>
          rw [h2] at hc
          exact (hl.trans hc).trans (ih _)

theorem pruneTags_log {σ : Type} (srv : Server σ)
    (Slice : (String → String → Bool) → List String → List String)
    (keepN : Nat) (workers : Int) (r : Run σ) :
    LogGrows r (pruneTags srv Slice keepN workers r).run := by
  unfold pruneTags
  have hl := catalog_log srv r
  cases h : (catalog srv r).1 with
  | error e =>
    have : catalog srv r = (.error e, (catalog srv r).2) := by rw [← h]
    rw [this]
    exact hl
  | ok repos =>
    have : catalog srv r = (.ok repos, (catalog srv r).2) := by rw [← h]
    rw [this]
    simp only
    have hp := pruneRepos_log srv Slice keepN workers repos (catalog srv r).2
    cases h2 : pruneRepos srv Slice keepN workers repos (catalog srv r).2 with
    | parked r2 =>
      rw [h2] at hp
      exact hl.trans hp
    | next r2 =>
      rw [h2] at hp
      exact hl.trans hp

/-- With at least one worker `pruneTags` returns, whatever the registry answers. -/
theorem pruneTags_returns {σ : Type} (srv : Server σ)
    (Slice : (String → String → Bool) → List String → List String)
    (keepN : Nat) (workers : Int) (hw : 0 < workers) (r : Run σ) :
    ∃ e r1, pruneTags srv Slice keepN workers r = .returned e r1 := by
  unfold pruneTags
  cases h : (catalog srv r).1 with
  | error e =>
    have : catalog srv r = (.error e, (catalog srv r).2) := by rw [← h]
    rw [this]
    exact ⟨_, _, rfl⟩
  | ok repos =>
    have : catalog srv r = (.ok repos, (catalog srv r).2) := by rw [← h]
    rw [this]
    obtain ⟨r2, h2⟩ := pruneRepos_next srv Slice keepN workers hw repos (catalog srv r).2
    simp only [h2]
    exact ⟨_, _, rfl⟩

/-! ### Runs against a registry whose answers depend only on the request -/

theorem manifestDigest_responses (R : Responses) (repo tag : String) (r : Run Unit) :
    manifestDigest R.server repo tag r =
      (digestResult (R.manifest repo tag),
        { r with log := r.log ++ [Call.manifestDigest repo tag] }) := rfl

theorem deleteManifest_responses (R : Responses) (repo digest : String) (r : Run Unit) :
    deleteManifest R.server repo digest r =
      (deleteResult (R.delete repo digest),
        { r with log := r.log ++ [Call.deleteManifest repo digest] }) := rfl

theorem candidates_jobs (R : Responses) (workers : Int) (hw : 0 < workers)
    (repo : String) (cs : List String) :
    ∀ r : Run Unit, (pruneCandidates R.server workers repo cs r).run.jobs =
      r.jobs ++ cs.filterMap (R.jobOf repo) := by
  induction cs with
  | nil => intro r; simp [pruneCandidates, LoopExit.run]
  | cons tag rest ih =>
    intro r
    rw [pruneCandidates]
    rw [manifestDigest_responses]
    simp only [List.filterMap_cons, Responses.jobOf]
    cases h : digestResult (R.manifest repo tag) with
    | error e =>
      simp only
      rw [ih]
    | ok d =>
      simp only [sendJob_next _ workers hw, deleteManifest_responses]
      rw [ih]
      simp

theorem candidates_jobs_parked (R : Responses) (workers : Int) (hw : workers ≤ 0)
    (repo : String) (cs : List String) :
    ∀ r : Run Unit, (pruneCandidates R.server workers repo cs r).run.jobs = r.jobs := by
  induction cs with
  | nil => intro r; simp [pruneCandidates, LoopExit.run]
  | cons tag rest ih =>
    intro r
    rw [pruneCandidates]
    rw [manifestDigest_responses]
    cases h : digestResult (R.manifest repo tag) with
    | error e =>
      simp only
      rw [ih]
    | ok d =>
      simp only [sendJob_parked _ workers hw, LoopExit.run]

theorem tagsList_responses (R : Responses) (repo : String) (r : Run Unit) :
    tagsList R.server repo r =
      (jsonDo (R.tags repo), { r with log := r.log ++ [Call.tagsList repo] }) := rfl

theorem drop_eq_nil_of_perm {Slice : (String → String → Bool) → List String → List String}
    (hS : sort.Permutes Slice) (keepN : Nat) (tags : List String)
    (h : tags.length ≤ keepN) : (Slice newer tags).drop keepN = [] := by
  apply List.drop_eq_nil_of_le
  rw [(hS newer tags).length_eq]
  exact h

theorem repos_jobs (R : Responses)
    (Slice : (String → String → Bool) → List String → List String)
    (hS : sort.Permutes Slice) (keepN : Nat) (workers : Int) (hw : 0 < workers)
    (repos : List String) :
    ∀ r : Run Unit, (pruneRepos R.server Slice keepN workers repos r).run.jobs =
      r.jobs ++ R.expectedJobs Slice keepN repos := by
  induction repos with
  | nil => intro r; simp [pruneRepos, LoopExit.run, Responses.expectedJobs]
  | cons repo rest ih =>
    intro r
    rw [pruneRepos, tagsList_responses]
    have hexp : R.expectedJobs Slice keepN (repo :: rest) =
        ((Slice newer (R.listedTags repo)).drop keepN).filterMap (R.jobOf repo) ++
          R.expectedJobs Slice keepN rest := by
      simp [Responses.expectedJobs]
    rw [hexp]
    unfold Responses.listedTags
    cases h : jsonDo (R.tags repo) with
    | error e =>
      simp only
      rw [ih]
      have : (Slice newer []).drop keepN = [] := drop_eq_nil_of_perm hS keepN [] (by simp)
      simp [this]
    | ok tags =>
      simp only
      split_ifs with hlen
      · rw [ih]
        simp [drop_eq_nil_of_perm hS keepN tags hlen]
      · obtain ⟨r2, h2⟩ := pruneCandidates_next R.server workers hw repo
          (candidates Slice keepN tags) { r with log := r.log ++ [Call.tagsList repo] }
        have hj := candidates_jobs R workers hw repo (candidates Slice keepN tags)
          { r with log := r.log ++ [Call.tagsList repo] }
        rw [h2] at hj
        simp only [h2]
        rw [ih]
        simp only [LoopExit.run] at hj
        rw [hj]
        simp [candidates]

theorem repos_jobs_parked (R : Responses)
    (Slice : (String → String → Bool) → List String → List String)
    (keepN : Nat) (workers : Int) (hw : workers ≤ 0) (repos : List String) :
    ∀ r : Run Unit, (pruneRepos R.server Slice keepN workers repos r).run.jobs = r.jobs := by
  induction repos with
  | nil => intro r; simp [pruneRepos, LoopExit.run]
  | cons repo rest ih =>
    intro r
    rw [pruneRepos, tagsList_responses]
    cases h : jsonDo (R.tags repo) with
    | error e =>
      simp only
      rw [ih]
    | ok tags =>
      simp only
      split_ifs with hlen
      · rw [ih]
      · have hj := candidates_jobs_parked R workers hw repo
          (candidates Slice keepN tags) { r with log := r.log ++ [Call.tagsList repo] }
        cases h2 : pruneCandidates R.server workers repo (candidates Slice keepN tags)
            { r with log := r.log ++ [Call.tagsList repo] } with
        | parked r2 =>
          rw [h2] at hj
          simpa [LoopExit.run] using hj
        | next r2 =>
          rw [h2] at hj
          simp only
          rw [ih]
          simpa [LoopExit.run] using hj

/-- The jobs a run of `pruneTags` sends, for every number of workers. -/
theorem pruneTags_jobs (R : Responses)
    (Slice : (String → String → Bool) → List String → List String)
    (hS : sort.Permutes Slice) (keepN : Nat) (workers : Int) :
    (pruneTags R.server Slice keepN workers (Run.start ())).run.jobs =
      match jsonDo R.catalog with
      | .error _ => []
      | .ok repos => if workers ≤ 0 then [] else R.expectedJobs Slice keepN repos := by
  unfold pruneTags
  have hc : catalog R.server (Run.start ()) =
      (jsonDo R.catalog, { (Run.start ()) with log := [Call.catalog] }) := rfl
  rw [hc]
  cases h : jsonDo R.catalog with
  | error e => rfl
  | ok repos =>
    simp only
    by_cases hw : workers ≤ 0
    · have hj := repos_jobs_parked R Slice keepN workers hw repos
        { (Run.start ()) with log := [Call.catalog] }
      simp only [hw, if_true]
      cases h2 : pruneRepos R.server Slice keepN workers repos
          { (Run.start ()) with log := [Call.catalog] } with
      | parked r2 => rw [h2] at hj; simpa [Outcome.run, LoopExit.run, Run.start] using hj
      | next r2 => rw [h2] at hj; simpa [Outcome.run, LoopExit.run, Run.start] using hj
    · have hj := repos_jobs R Slice hS keepN workers (by omega) repos
        { (Run.start ()) with log := [Call.catalog] }
      simp only [hw, if_false]
      cases h2 : pruneRepos R.server Slice keepN workers repos
          { (Run.start ()) with log := [Call.catalog] } with
      | parked r2 => rw [h2] at hj; simpa [Outcome.run, LoopExit.run, Run.start] using hj
      | next r2 => rw [h2] at hj; simpa [Outcome.run, LoopExit.run, Run.start] using hj

theorem jobOf_some {R : Responses} {repo tag : String} {j : Job}
    (h : R.jobOf repo tag = some j) : j.repo = repo ∧ j.tag = tag := by
  unfold Responses.jobOf at h
  split at h
  · simp only [Option.some.injEq] at h
    subst h
    exact ⟨rfl, rfl⟩
  · exact absurd h (by simp)

theorem expectedJobs_cons (R : Responses)
    (Slice : (String → String → Bool) → List String → List String)
    (keepN : Nat) (repo : String) (rest : List String) :
    R.expectedJobs Slice keepN (repo :: rest) =
      (candidates Slice keepN (R.listedTags repo)).filterMap (R.jobOf repo) ++
        R.expectedJobs Slice keepN rest := by
  simp [Responses.expectedJobs, candidates]

theorem mem_expectedJobs {R : Responses}
    {Slice : (String → String → Bool) → List String → List String}
    {keepN : Nat} {repos : List String} {j : Job}
    (h : j ∈ R.expectedJobs Slice keepN repos) :
    j.repo ∈ repos ∧ j.tag ∈ candidates Slice keepN (R.listedTags j.repo) := by
  induction repos with
  | nil => simp [Responses.expectedJobs] at h
  | cons repo rest ih =>
    rw [expectedJobs_cons] at h
    rcases List.mem_append.1 h with h1 | h1
    · obtain ⟨tag, ht, hj⟩ := List.mem_filterMap.1 h1
      obtain ⟨e1, e2⟩ := jobOf_some hj
      rw [e1, e2]
      exact ⟨List.mem_cons_self _ _, ht⟩
    · exact ⟨List.mem_cons_of_mem _ (ih h1).1, (ih h1).2⟩

theorem candidates_length {Slice : (String → String → Bool) → List String → List String}
    (hS : sort.Permutes Slice) (keepN : Nat) (tags : List String) :
    (candidates Slice keepN tags).length = tags.length - keepN := by
  rw [candidates, List.length_drop, (hS newer tags).length_eq]

theorem expectedJobs_filter_length (R : Responses)
    {Slice : (String → String → Bool) → List String → List String}
    (hS : sort.Permutes Slice) (keepN : Nat) (repo : String) (repos : List String)
    (hnd : repos.Nodup) :
    ((R.expectedJobs Slice keepN repos).filter fun j => j.repo == repo).length ≤
      (R.listedTags repo).length - keepN := by
  induction repos with
  | nil => simp [Responses.expectedJobs]
  | cons r rest ih =>
    rw [List.nodup_cons] at hnd
    rw [expectedJobs_cons, List.filter_append, List.length_append]
    by_cases hr : r = repo
    · subst hr
      have h0 : (R.expectedJobs Slice keepN rest).filter (fun j => j.repo == r) = [] := by
        rw [List.filter_eq_nil_iff]
        intro j hj hrepo
        simp only [beq_iff_eq] at hrepo
        exact hnd.1 (hrepo ▸ (mem_expectedJobs hj).1)
      rw [h0, List.length_nil, Nat.add_zero]
      calc (List.filter (fun j => j.repo == r)
              ((candidates Slice keepN (R.listedTags r)).filterMap (R.jobOf r))).length
          ≤ ((candidates Slice keepN (R.listedTags r)).filterMap (R.jobOf r)).length :=
            List.length_filter_le _ _
        _ ≤ (candidates Slice keepN (R.listedTags r)).length := List.length_filterMap_le _ _
        _ = (R.listedTags r).length - keepN := candidates_length hS keepN _
    · have h0 : ((candidates Slice keepN (R.listedTags r)).filterMap (R.jobOf r)).filter
          (fun j => j.repo == repo) = [] := by
        rw [List.filter_eq_nil_iff]
        intro j hj hrepo
        simp only [beq_iff_eq] at hrepo
        obtain ⟨tag, _, hjob⟩ := List.mem_filterMap.1 hj
        exact hr ((jobOf_some hjob).1.symm.trans hrepo)
      rw [h0, List.length_nil, Nat.zero_add]
      exact ih hnd.2

/-! ### The jobs of one pass over a catalog entry -/

theorem pruneCandidates_new_jobs {σ : Type} (srv : Server σ) (workers : Int)
    (repo : String) (cs : List String) :
    ∀ r : Run σ, ∃ new, (pruneCandidates srv workers repo cs r).run.jobs = r.jobs ++ new ∧
      new.length ≤ cs.length ∧ ∀ j ∈ new, j.repo = repo ∧ j.tag ∈ cs := by
  induction cs with
  | nil =>
    intro r
    exact ⟨[], by simp [pruneCandidates, LoopExit.run], by simp, by simp⟩
  | cons tag rest ih =>
    intro r
    rw [pruneCandidates]
    have hj : (manifestDigest srv repo tag r).2.jobs = r.jobs := rfl
    cases h : (manifestDigest srv repo tag r).1 with
    | error e =>
      have : manifestDigest srv repo tag r = (.error e, (manifestDigest srv repo tag r).2) := by
        rw [← h]
      rw [this]
      obtain ⟨new, h1, h2, h3⟩ := ih (manifestDigest srv repo tag r).2
      refine ⟨new, by rw [← hj]; exact h1, by simp only [List.length_cons]; omega, ?_⟩
      intro j hjn
      exact ⟨(h3 j hjn).1, List.mem_cons_of_mem _ (h3 j hjn).2⟩
    | ok d =>
      have : manifestDigest srv repo tag r = (.ok d, (manifestDigest srv repo tag r).2) := by
        rw [← h]
      rw [this]
      simp only
      by_cases hw : workers ≤ 0
      · rw [sendJob_parked srv workers hw]
        exact ⟨[], by simp [LoopExit.run, hj], by simp, by simp⟩
      · rw [sendJob_next srv workers (by omega)]
        simp only
        obtain ⟨new, h1, h2, h3⟩ := ih (deleteManifest srv repo d
          { (manifestDigest srv repo tag r).2 with
            jobs := (manifestDigest srv repo tag r).2.jobs ++ [⟨repo, tag, d⟩] }).2
        have hd : (deleteManifest srv repo d
          { (manifestDigest srv repo tag r).2 with
            jobs := (manifestDigest srv repo tag r).2.jobs ++ [⟨repo, tag, d⟩] }).2.jobs =
            r.jobs ++ [⟨repo, tag, d⟩] := rfl
        refine ⟨⟨repo, tag, d⟩ :: new, ?_, by simp only [List.length_cons]; omega, ?_⟩
        · rw [h1, hd]
          simp
        · intro j hjn
          rcases List.mem_cons.1 hjn with e | e
          · subst e
            exact ⟨rfl, List.mem_cons_self _ _⟩
          · exact ⟨(h3 j e).1, List.mem_cons_of_mem _ (h3 j e).2⟩

theorem tagsList_fst {σ : Type} (srv : Server σ) (repo : String) (r : Run σ) :
    (tagsList srv repo r).1 = jsonDo (srv.getTags repo r.st).1 := rfl

theorem pruneRepos_one_pass {σ : Type} (srv : Server σ)
    (Slice : (String → String → Bool) → List String → List String)
    (hS : sort.Permutes Slice) (keepN : Nat) (workers : Int) (repo : String) (r : Run σ) :
    ∃ new, (pruneRepos srv Slice keepN workers [repo] r).run.jobs = r.jobs ++ new ∧
      new.length ≤ (srv.listing repo r.st).length - keepN ∧
      (∀ j ∈ new, j.repo = repo ∧ j.tag ∈ candidates Slice keepN (srv.listing repo r.st)) ∧
      ((srv.listing repo r.st).length ≤ keepN → new = []) := by
  rw [pruneRepos]
  have hj : (tagsList srv repo r).2.jobs = r.jobs := rfl
  have hl := tagsList_fst srv repo r
  unfold Server.listing
  rw [← hl]
  cases h : (tagsList srv repo r).1 with
  | error e =>
    have : tagsList srv repo r = (.error e, (tagsList srv repo r).2) := by rw [← h]
    rw [this]
    exact ⟨[], by simp [pruneRepos, LoopExit.run, hj], by simp, by simp, fun _ => rfl⟩
  | ok tags =>
    have : tagsList srv repo r = (.ok tags, (tagsList srv repo r).2) := by rw [← h]
    rw [this]
    simp only
    split_ifs with hlen
    · exact ⟨[], by simp [pruneRepos, LoopExit.run, hj], by simp, by simp, fun _ => rfl⟩
    · obtain ⟨new, h1, h2, h3⟩ := pruneCandidates_new_jobs srv workers repo
        (candidates Slice keepN tags) (tagsList srv repo r).2
      rw [candidates_length hS] at h2
      refine ⟨new, ?_, h2, h3, fun hle => absurd hle hlen⟩
      rw [← hj, ← h1]
      cases pruneCandidates srv workers repo (candidates Slice keepN tags)
          (tagsList srv repo r).2 with
      | parked r2 => rfl
      | next r2 => rfl

theorem pruneRepos_cons_pass {σ : Type} (srv : Server σ)
    (Slice : (String → String → Bool) → List String → List String)
    (keepN : Nat) (workers : Int) (repo : String) (rest : List String) (r : Run σ) :
    pruneRepos srv Slice keepN workers (repo :: rest) r =
      match pruneRepos srv Slice keepN workers [repo] r with
      | .parked r2 => .parked r2
      | .next r2 => pruneRepos srv Slice keepN workers rest r2 := by
  rw [pruneRepos, pruneRepos]
  cases h : (tagsList srv repo r).1 with
  | error e =>
    have : tagsList srv repo r = (.error e, (tagsList srv repo r).2) := by rw [← h]
    rw [this]
    simp [pruneRepos]
  | ok tags =>
    have : tagsList srv repo r = (.ok tags, (tagsList srv repo r).2) := by rw [← h]
    rw [this]
    simp only
    split_ifs with hlen
    · simp [pruneRepos]
    · cases pruneCandidates srv workers repo (candidates Slice keepN tags)
          (tagsList srv repo r).2 with
      | parked r2 => rfl
      | next r2 => simp [pruneRepos]

theorem pruneRepos_jobs_count {σ : Type} (srv : Server σ)
    (Slice : (String → String → Bool) → List String → List String)
    (hS : sort.Permutes Slice) (keepN : Nat) (workers : Int) (repo : String) (n : Nat)
    (hn : ∀ s, (srv.listing repo s).length ≤ n) (repos : List String) :
    ∀ r : Run σ,
      ((pruneRepos srv Slice keepN workers repos r).run.jobs.filter
          fun j => j.repo == repo).length ≤
        (r.jobs.filter fun j => j.repo == repo).length +
          repos.count repo * (n - keepN) := by
  induction repos with
  | nil => intro r; simp [pruneRepos, LoopExit.run]
  | cons x rest ih =>
    intro r
    obtain ⟨new, h1, h2, h3, _⟩ := pruneRepos_one_pass srv Slice hS keepN workers x r
    have hnew : (new.filter fun j => j.repo == repo).length ≤
        (if x = repo then 1 else 0) * (n - keepN) := by
      by_cases hx : x = repo
      · subst hx
        simp only [if_true, Nat.one_mul]
        calc (new.filter fun j => j.repo == x).length ≤ new.length :=
              List.length_filter_le _ _
          _ ≤ (srv.listing x r.st).length - keepN := h2
          _ ≤ n - keepN := Nat.sub_le_sub_right (hn r.st) keepN
      · have : new.filter (fun j => j.repo == repo) = [] := by
          rw [List.filter_eq_nil_iff]
          intro j hj
          have := (h3 j hj).1
          simp [this, hx]
        simp [this]
    have hcount : (x :: rest).count repo * (n - keepN) =
        rest.count repo * (n - keepN) + (if x = repo then 1 else 0) * (n - keepN) := by
      rw [List.count_cons, Nat.add_mul]
      by_cases hx : x = repo
      · simp [hx]
      · have : (x == repo) = false := by simp [hx]
        simp [hx, this]
    rw [hcount, pruneRepos_cons_pass]
    cases hp : pruneRepos srv Slice keepN workers [x] r with
    | parked r2 =>
      rw [hp] at h1
      simp only [LoopExit.run] at h1 ⊢
      rw [h1, List.filter_append, List.length_append]
      omega
    | next r2 =>
      rw [hp] at h1
      simp only [LoopExit.run] at h1
      simp only
      have := ih r2
      rw [h1, List.filter_append, List.length_append] at this
      omega

/-- C4 (amended). `pruneTags` handles the catalog one entry after the other. Each
pass over an entry for a repository emits at most `max(0, len(tags) - keepN)`
delete jobs, `tags` being the listing obtained in that pass; each of them is for
that repository and for a tag of that listing ranked at index `>= keepN`; and no
job is emitted when `len(tags) <= keepN` (an empty or failed listing included).
Over the whole run the jobs for the repository number at most
`k * max(0, n - keepN)` when the catalog names it `k` times and its listing
never holds more than `n` tags. -/
theorem pruneTags_jobs_per_pass {σ : Type} (srv : Server σ)
    (Slice : (String → String → Bool) → List String → List String)
    (hS : sort.Permutes Slice) (keepN : Nat) (workers : Int) (repo : String) :
    (∀ (rest : List String) (r : Run σ),
      pruneRepos srv Slice keepN workers (repo :: rest) r =
        match pruneRepos srv Slice keepN workers [repo] r with
        | .parked r2 => .parked r2
        | .next r2 => pruneRepos srv Slice keepN workers rest r2) ∧
    (∀ r : Run σ, ∃ new,
      (pruneRepos srv Slice keepN workers [repo] r).run.jobs = r.jobs ++ new ∧
      new.length ≤ (srv.listing repo r.st).length - keepN ∧
      (∀ j ∈ new, j.repo = repo ∧ j.tag ∈ candidates Slice keepN (srv.listing repo r.st)) ∧
      ((srv.listing repo r.st).length ≤ keepN → new = [])) ∧
    (∀ (n : Nat) (r : Run σ), (∀ s, (srv.listing repo s).length ≤ n) →
      ((pruneTags srv Slice keepN workers r).run.jobs.filter
          fun j => j.repo == repo).length ≤
        (r.jobs.filter fun j => j.repo == repo).length +
          (srv.repositories r.st).count repo * (n - keepN)) := by
  refine ⟨fun rest r => pruneRepos_cons_pass srv Slice keepN workers repo rest r,
    fun r => pruneRepos_one_pass srv Slice hS keepN workers repo r, ?_⟩
  intro n r hn
  unfold pruneTags Server.repositories
  have hc : (catalog srv r).1 = jsonDo (srv.getCatalog r.st).1 := rfl
  have hj : (catalog srv r).2.jobs = r.jobs := rfl
  rw [← hc]
  cases h : (catalog srv r).1 with
  | error e =>
    have : catalog srv r = (.error e, (catalog srv r).2) := by rw [← h]
    rw [this]
    simp [Outcome.run, hj]
  | ok repos =>
    have : catalog srv r = (.ok repos, (catalog srv r).2) := by rw [← h]
    rw [this]
    simp only
    have hb := pruneRepos_jobs_count srv Slice hS keepN workers repo n hn repos
      (catalog srv r).2
    rw [hj] at hb
    cases hp : pruneRepos srv Slice keepN workers repos (catalog srv r).2 with
    | parked r2 => rw [hp] at hb; exact hb
    | next r2 => rw [hp] at hb; exact hb

theorem pruneTags_jobs_per_pass_witness :
    (∀ r : Run Unit, ∃ new,
      (pruneRepos repeatedCatalog.server sort.insertionSortLessFunc 1 8 ["a"] r).run.jobs =
        r.jobs ++ new ∧
      new.length ≤ (repeatedCatalog.server.listing "a" r.st).length - 1 ∧
      (∀ j ∈ new, j.repo = "a" ∧
        j.tag ∈ candidates sort.insertionSortLessFunc 1
          (repeatedCatalog.server.listing "a" r.st)) ∧
      ((repeatedCatalog.server.listing "a" r.st).length ≤ 1 → new = [])) ∧
    ((pruneTags repeatedCatalog.server sort.insertionSortLessFunc 1 8
        (Run.start ())).run.jobs.filter fun j => j.repo == "a").length ≤
      ((Run.start ()).jobs.filter fun j => j.repo == "a").length +
        (repeatedCatalog.server.repositories ()).count "a" * (3 - 1) ∧
    (repeatedCatalog.server.repositories ()).count "a" = 2 ∧
    repeatedCatalog.server.listing "a" () = ["1.0.0", "1.10.0", "1.9.0"] :=
  ⟨(pruneTags_jobs_per_pass repeatedCatalog.server sort.insertionSortLessFunc
      sort.insertionSort_permutes 1 8 "a").2.1,
   (pruneTags_jobs_per_pass repeatedCatalog.server sort.insertionSortLessFunc
      sort.insertionSort_permutes 1 8 "a").2.2 3 (Run.start ())
      (fun s => by cases s; decide),
   by decide, by decide⟩

/-- C4 (counterexample). The catalog names repository `a` twice; its listing has
three tags and `keepN = 1`. `pruneTags` passes over `a` twice and emits four
delete jobs for it, more than `max(0, 3 - 1) = 2`. -/
theorem pruneTags_repeated_catalog_entry :
    (jsonDo repeatedCatalog.catalog).toOption = some ["a", "a"] ∧
    repeatedCatalog.listedTags "a" = ["1.0.0", "1.10.0", "1.9.0"] ∧
    (pruneTags repeatedCatalog.server sort.insertionSortLessFunc 1 8
        (Run.start ())).run.jobs =
      [⟨"a", "1.9.0", "sha256:a1.9.0"⟩, ⟨"a", "1.0.0", "sha256:a1.0.0"⟩,
       ⟨"a", "1.9.0", "sha256:a1.9.0"⟩, ⟨"a", "1.0.0", "sha256:a1.0.0"⟩] ∧
    ¬ ((pruneTags repeatedCatalog.server sort.insertionSortLessFunc 1 8
          (Run.start ())).run.jobs.filter fun j => j.repo == "a").length ≤
        (repeatedCatalog.listedTags "a").length - 1 := by
  decide

/-- C5 (the code at the failing input). With `WORKERS=0` the catalog call
succeeds, yet `pruneTags` never returns: it parks on the first send
`jobs <- job`, no job is handed to a worker, and the three delete jobs the
specification describes for this registry are not emitted. -/
theorem pruneTags_parks_without_workers :
    (jsonDo sampleResponses.catalog).toOption = some ["a", "b", "c"] ∧
    (pruneTags sampleResponses.server sort.insertionSortLessFunc 1 0
      (Run.start ())).isBlocked = true ∧
    (pruneTags sampleResponses.server sort.insertionSortLessFunc 1 0
      (Run.start ())).run.jobs = [] ∧
    sampleResponses.expectedJobs sort.insertionSortLessFunc 1 ["a", "b", "c"] =
      [⟨"a", "1.9.0", "sha256:a1.9.0"⟩, ⟨"a", "1.0.0", "sha256:a1.0.0"⟩,
       ⟨"c", "2.0.0", "sha256:c2.0.0"⟩] := by
  decide

/-- C6 (the code at the failing input). With `KEEP_N=1`, credentials set and
`WORKERS=0`, `runPrune` never returns and never reaches `runGC`: its log ends
with the digest lookup of the first candidate and holds no `gc`. -/
theorem runPrune_parks_before_runGC :
    (runPrune sampleResponses.server sort.insertionSortLessFunc 1 0 "admin"
      (Run.start ())).isBlocked = true ∧
    (runPrune sampleResponses.server sort.insertionSortLessFunc 1 0 "admin"
      (Run.start ())).run.log =
        [Call.catalog, Call.tagsList "a", Call.manifestDigest "a" "1.9.0"] := by
  decide

/-- The positive side of C5. With at least one worker and a successful catalog
call, `pruneTags` returns `nil` and emits exactly the jobs the specification
describes. -/
theorem pruneTags_emits_expectedJobs (R : Responses)
    (Slice : (String → String → Bool) → List String → List String)
    (hS : sort.Permutes Slice) (keepN : Nat) (workers : Int) (hw : 0 < workers)
    (repos : List String) (hc : jsonDo R.catalog = .ok repos) :
    ∃ r, pruneTags R.server Slice keepN workers (Run.start ()) = .returned none r ∧
      r.jobs = R.expectedJobs Slice keepN repos := by
  have hj := pruneTags_jobs R Slice hS keepN workers
  rw [hc] at hj
  have hnw : ¬ workers ≤ 0 := by omega
  simp only [hnw, if_false] at hj
  obtain ⟨e, r1, hr⟩ := pruneTags_returns R.server Slice keepN workers hw (Run.start ())
  have he : e = none := by
    unfold pruneTags at hr
    have hcat : catalog R.server (Run.start ()) =
      (jsonDo R.catalog, { (Run.start ()) with log := [Call.catalog] }) := rfl
    rw [hcat, hc] at hr
    simp only at hr
    split at hr
    · exact absurd hr (by simp)
    · simp only [Outcome.returned.injEq] at hr
      exact hr.1.symm
  subst he
  rw [hr] at hj
  exact ⟨r1, hr, hj⟩

theorem pruneTags_emits_expectedJobs_witness :
    ∃ r, pruneTags sampleResponses.server sort.insertionSortLessFunc 1 8 (Run.start ()) =
        .returned none r ∧
      r.jobs = sampleResponses.expectedJobs sort.insertionSortLessFunc 1 ["a", "b", "c"] :=
  pruneTags_emits_expectedJobs sampleResponses sort.insertionSortLessFunc
    sort.insertionSort_permutes 1 8 (by decide) ["a", "b", "c"] rfl

theorem listedTags_of_error {R : Responses} {repo : String} {e : GoError}
    (h : jsonDo (R.tags repo) = .error e) : R.listedTags repo = [] := by
  unfold Responses.listedTags
  rw [h]

theorem expectedJobs_listing_failure (R R1 : Responses)
    (Slice : (String → String → Bool) → List String → List String)
    (hS : sort.Permutes Slice) (keepN : Nat) (repos : List String) (B : String)
    (e : GoError) (hB : jsonDo (R1.tags B) = .error e)
    (htags : ∀ repo, repo ≠ B → R1.tags repo = R.tags repo)
    (hman : R1.manifest = R.manifest) :
    R1.expectedJobs Slice keepN repos =
      (R.expectedJobs Slice keepN repos).filter fun j => !(j.repo == B) := by
  induction repos with
  | nil => simp [Responses.expectedJobs]
  | cons repo rest ih =>
    rw [expectedJobs_cons, expectedJobs_cons, List.filter_append, ih]
    congr 1
    by_cases hr : repo = B
    · subst hr
      have h1 : candidates Slice keepN (R1.listedTags repo) = [] := by
        rw [listedTags_of_error hB]
        exact drop_eq_nil_of_perm hS keepN [] (by simp)
      rw [h1, List.filterMap_nil]
      symm
      rw [List.filter_eq_nil_iff]
      intro j hj
      obtain ⟨tag, _, hjob⟩ := List.mem_filterMap.1 hj
      simp [(jobOf_some hjob).1]
    · have h1 : R1.listedTags repo = R.listedTags repo := by
        unfold Responses.listedTags
        rw [htags repo hr]
      have h2 : R1.jobOf repo = R.jobOf repo := by
        funext tag
        unfold Responses.jobOf
        rw [hman]
      rw [h1, h2]
      symm
      rw [List.filter_eq_self]
      intro j hj
      obtain ⟨tag, _, hjob⟩ := List.mem_filterMap.1 hj
      simp [(jobOf_some hjob).1, hr]

theorem filterMap_jobOf_digest_failure (R R1 : Responses) (B t : String) (e : GoError)
    (hfail : digestResult (R1.manifest B t) = .error e)
    (hman : ∀ tag, tag ≠ t → R1.manifest B tag = R.manifest B tag) (cs : List String) :
    cs.filterMap (R1.jobOf B) =
      (cs.filterMap (R.jobOf B)).filter fun j => !(j.repo == B && j.tag == t) := by
  induction cs with
  | nil => rfl
  | cons c cs ih =>
    rw [List.filterMap_cons, List.filterMap_cons, ih]
    by_cases hc : c = t
    · subst hc
      have h1 : R1.jobOf B c = none := by
        unfold Responses.jobOf
        rw [hfail]
      rw [h1]
      cases hj : R.jobOf B c with
      | none => rfl
      | some j =>
        obtain ⟨e1, e2⟩ := jobOf_some hj
        simp [List.filter_cons, e1, e2]
    · have h1 : R1.jobOf B c = R.jobOf B c := by
        unfold Responses.jobOf
        rw [hman c hc]
      rw [h1]
      cases hj : R.jobOf B c with
      | none => rfl
      | some j =>
        obtain ⟨e1, e2⟩ := jobOf_some hj
        simp [List.filter_cons, e1, e2, hc]

theorem expectedJobs_digest_failure (R R1 : Responses)
    (Slice : (String → String → Bool) → List String → List String)
    (keepN : Nat) (repos : List String) (B t : String)
    (e : GoError) (hfail : digestResult (R1.manifest B t) = .error e)
    (hman : ∀ repo tag, ¬ (repo = B ∧ tag = t) → R1.manifest repo tag = R.manifest repo tag)
    (htags : R1.tags = R.tags) :
    R1.expectedJobs Slice keepN repos =
      (R.expectedJobs Slice keepN repos).filter fun j => !(j.repo == B && j.tag == t) := by
  have hl : ∀ repo, R1.listedTags repo = R.listedTags repo := by
    intro repo
    unfold Responses.listedTags
    rw [htags]
  induction repos with
  | nil => simp [Responses.expectedJobs]
  | cons repo rest ih =>
    rw [expectedJobs_cons, expectedJobs_cons, List.filter_append, ih, hl]
    congr 1
    by_cases hr : repo = B
    · subst hr
      exact filterMap_jobOf_digest_failure R R1 repo t e hfail
        (fun tag ht => hman repo tag (fun h => ht h.2)) _
    · have h2 : R1.jobOf repo = R.jobOf repo := by
        funext tag
        unfold Responses.jobOf
        rw [hman repo tag (fun h => hr h.1)]
      rw [h2]
      symm
      rw [List.filter_eq_self]
      intro j hj
      obtain ⟨tag, _, hjob⟩ := List.mem_filterMap.1 hj
      simp [(jobOf_some hjob).1, hr]

theorem runPrune_skips_prune {σ : Type} (srv : Server σ)
    (Slice : (String → String → Bool) → List String → List String)
    (keepN : Int) (workers : Int) (user : String) (r : Run σ)
    (h : keepN ≤ 0 ∨ user = "") :
    runPrune srv Slice keepN workers user r = .returned none (runGC r) := by
  unfold runPrune
  rcases h with h | h
  · simp [h]
  · simp [h]

/-- The positive side of C6. With at least one worker `runPrune` returns, and
`runGC` is invoked exactly once, after every registry call. -/
theorem runPrune_runs_gc_last {σ : Type} (srv : Server σ)
    (Slice : (String → String → Bool) → List String → List String)
    (keepN : Int) (workers : Int) (user : String) (s : σ) (hw : 0 < workers) :
    ∃ r, runPrune srv Slice keepN workers user (Run.start s) = .returned none r ∧
      r.log.count Call.gc = 1 ∧ r.log.getLast? = some Call.gc := by
  by_cases h : keepN ≤ 0 ∨ user = ""
  · refine ⟨_, runPrune_skips_prune srv Slice keepN workers user _ h, ?_, ?_⟩
    · simp [runGC, Run.start]
    · simp [runGC, Run.start]
  · have h1 : ¬ keepN ≤ 0 := fun x => h (Or.inl x)
    have h2 : ¬ user = "" := fun x => h (Or.inr x)
    unfold runPrune
    simp only [h1, h2, if_false]
    obtain ⟨e, r1, hr⟩ := pruneTags_returns srv Slice keepN.toNat workers hw (Run.start s)
    have hl := pruneTags_log srv Slice keepN.toNat workers (Run.start s)
    rw [hr] at hl ⊢
    obtain ⟨calls, hc, hn⟩ := hl
    simp only [Outcome.run, Run.start, List.nil_append] at hc
    refine ⟨_, rfl, ?_, ?_⟩
    · simp only [runGC, hc, List.count_append]
      rw [List.count_eq_zero_of_not_mem hn]
      simp
    · simp [runGC]

/-- A failed tag listing of repository `B` removes the jobs of `B` and no other
job: the run emits the jobs of the run against a registry that differs only in
the listing of `B`, without those for `B`. -/
theorem pruneTags_isolates_listing_failure (R R1 : Responses)
    (Slice : (String → String → Bool) → List String → List String)
    (hS : sort.Permutes Slice) (keepN : Nat) (workers : Int) (B : String)
    (e : GoError) (hB : jsonDo (R1.tags B) = .error e)
    (hcat : R1.catalog = R.catalog)
    (htags : ∀ repo, repo ≠ B → R1.tags repo = R.tags repo)
    (hman : R1.manifest = R.manifest) :
    (pruneTags R1.server Slice keepN workers (Run.start ())).run.jobs =
      (pruneTags R.server Slice keepN workers (Run.start ())).run.jobs.filter
        fun j => !(j.repo == B) := by
  rw [pruneTags_jobs R1 Slice hS keepN workers, pruneTags_jobs R Slice hS keepN workers, hcat]
  cases jsonDo R.catalog with
  | error _ => rfl
  | ok repos =>
    simp only
    split_ifs
    · rfl
    · exact expectedJobs_listing_failure R R1 Slice hS keepN repos B e hB htags hman

theorem pruneTags_isolates_listing_failure_witness :
    (pruneTags sampleResponses.server sort.insertionSortLessFunc 1 8
        (Run.start ())).run.jobs =
      (pruneTags healthyListing.server sort.insertionSortLessFunc 1 8
        (Run.start ())).run.jobs.filter fun j => !(j.repo == "b") :=
  pruneTags_isolates_listing_failure healthyListing sampleResponses
    sort.insertionSortLessFunc sort.insertionSort_permutes 1 8 "b" (GoError.status 500)
    (by rfl) rfl (by intro repo h; simp [healthyListing, h]) rfl

/-- A failed digest lookup of tag `t` of repository `B` removes the job of `B:t`
and no other job. -/
theorem pruneTags_isolates_digest_failure (R R1 : Responses)
    (Slice : (String → String → Bool) → List String → List String)
    (hS : sort.Permutes Slice) (keepN : Nat) (workers : Int) (B t : String)
    (e : GoError) (hfail : digestResult (R1.manifest B t) = .error e)
    (hcat : R1.catalog = R.catalog)
    (hman : ∀ repo tag, ¬ (repo = B ∧ tag = t) → R1.manifest repo tag = R.manifest repo tag)
    (htags : R1.tags = R.tags) :
    (pruneTags R1.server Slice keepN workers (Run.start ())).run.jobs =
      (pruneTags R.server Slice keepN workers (Run.start ())).run.jobs.filter
        fun j => !(j.repo == B && j.tag == t) := by
  rw [pruneTags_jobs R1 Slice hS keepN workers, pruneTags_jobs R Slice hS keepN workers, hcat]
  cases jsonDo R.catalog with
  | error _ => rfl
  | ok repos =>
    simp only
    split_ifs
    · rfl
    · exact expectedJobs_digest_failure R R1 Slice keepN repos B t e hfail hman htags

theorem pruneTags_isolates_digest_failure_witness :
    (pruneTags sampleResponses.server sort.insertionSortLessFunc 1 8
        (Run.start ())).run.jobs =
      (pruneTags healthyDigest.server sort.insertionSortLessFunc 1 8
        (Run.start ())).run.jobs.filter fun j => !(j.repo == "c" && j.tag == "1.0.0") :=
  pruneTags_isolates_digest_failure healthyDigest sampleResponses
    sort.insertionSortLessFunc sort.insertionSort_permutes 1 8 "c" "1.0.0"
    (GoError.status 404) (by rfl) rfl (by intro repo tag h; simp [healthyDigest, h]) rfl

theorem runPrune_runs_gc_last_witness :
    ∃ r, runPrune sampleResponses.server sort.insertionSortLessFunc 1 8 "admin"
        (Run.start ()) = .returned none r ∧
      r.log.count Call.gc = 1 ∧ r.log.getLast? = some Call.gc :=
  runPrune_runs_gc_last sampleResponses.server sort.insertionSortLessFunc 1 8 "admin" ()
    (by decide)

/-- With `keepN <= 0` or no `REGISTRY_USER`, `runPrune` makes no registry call: one
`runGC` invocation is all it does, whatever the number of workers. -/
theorem runPrune_gated_runs_gc_only {σ : Type} (srv : Server σ)
    (Slice : (String → String → Bool) → List String → List String)
    (keepN : Int) (workers : Int) (user : String) (s : σ)
    (h : keepN ≤ 0 ∨ user = "") :
    runPrune srv Slice keepN workers user (Run.start s) =
      .returned none ⟨s, [Call.gc], []⟩ :=
  runPrune_skips_prune srv Slice keepN workers user (Run.start s) h

theorem runPrune_gated_runs_gc_only_witness :
    runPrune sampleResponses.server sort.insertionSortLessFunc 10 0 "" (Run.start ()) =
      .returned none ⟨(), [Call.gc], []⟩ ∧
    runPrune sampleResponses.server sort.insertionSortLessFunc 0 8 "admin" (Run.start ()) =
      .returned none ⟨(), [Call.gc], []⟩ :=
  ⟨runPrune_gated_runs_gc_only sampleResponses.server sort.insertionSortLessFunc 10 0 ""
      () (Or.inr rfl),
   runPrune_gated_runs_gc_only sampleResponses.server sort.insertionSortLessFunc 0 8
      "admin" () (Or.inl (by decide))⟩

/-! ### Runs against the registry with explicit state -/

theorem tagsList_registry (repo : String) (r : Run Registry) :
    tagsList Registry.server repo r =
      (.ok (r.st.tagNames repo), { r with log := r.log ++ [Call.tagsList repo] }) := rfl

theorem catalog_registry (r : Run Registry) :
    catalog Registry.server r =
      (.ok r.st.repos, { r with log := r.log ++ [Call.catalog] }) := rfl

theorem lookup_some_mem {t d : String} : ∀ {L : List (String × String)},
    L.lookup t = some d → (t, d) ∈ L := by
  intro L
  induction L with
  | nil => intro h; simp [List.lookup] at h
  | cons e es ih =>
    intro h
    obtain ⟨k, v⟩ := e
    rw [List.lookup] at h
    split at h
    · rename_i heq
      simp only [beq_iff_eq] at heq
      simp only [Option.some.injEq] at h
      rw [heq, h]
      exact List.mem_cons_self _ _
    · exact List.mem_cons_of_mem _ (ih h)

theorem lookup_none_not_mem {t : String} : ∀ {L : List (String × String)},
    L.lookup t = none → ∀ e ∈ L, e.1 ≠ t := by
  intro L
  induction L with
  | nil => intro _ e he; simp at he
  | cons x es ih =>
    intro h e he
    obtain ⟨k, v⟩ := x
    rw [List.lookup] at h
    split at h
    · exact absurd h (by simp)
    · rename_i hne
      rcases List.mem_cons.1 he with h1 | h1
      · subst h1
        intro hk
        simp only at hk
        rw [hk] at hne
        simp at hne
      · exact ih h e h1

theorem manifestDigest_registry_some {repo tag d : String} {r : Run Registry}
    (h : (r.st.tags repo).lookup tag = some d) :
    manifestDigest Registry.server repo tag r =
      (.ok d, { r with log := r.log ++ [Call.manifestDigest repo tag] }) := by
  simp only [manifestDigest, Registry.server, h]
  rfl

theorem manifestDigest_registry_none {repo tag : String} {r : Run Registry}
    (h : (r.st.tags repo).lookup tag = none) :
    manifestDigest Registry.server repo tag r =
      (.error (.status 404), { r with log := r.log ++ [Call.manifestDigest repo tag] }) := by
  simp only [manifestDigest, Registry.server, h]
  rfl

theorem deleteManifest_registry_held {repo d : String} {r : Run Registry}
    (h : r.st.holds repo d = true) :
    deleteManifest Registry.server repo d r =
      (none, { r with st := r.st.remove repo d,
                      log := r.log ++ [Call.deleteManifest repo d] }) := by
  simp only [deleteManifest, Registry.server, h, if_true]
  rfl

theorem deleteManifest_registry_missing {repo d : String} {r : Run Registry}
    (h : r.st.holds repo d = false) :
    deleteManifest Registry.server repo d r =
      (some (.status 404), { r with log := r.log ++ [Call.deleteManifest repo d] }) := by
  simp only [deleteManifest, Registry.server, h]
  rfl

theorem holds_remove (reg : Registry) (repo d : String) :
    (reg.remove repo d).holds repo d = false := by
  simp [Registry.holds, Registry.remove]

theorem deleteManifest_registry_frame (repo d : String) (r : Run Registry) :
    (deleteManifest Registry.server repo d r).2.st.repos = r.st.repos ∧
    ∀ other, other ≠ repo →
      (deleteManifest Registry.server repo d r).2.st.tags other = r.st.tags other := by
  cases h : r.st.holds repo d with
  | true =>
    rw [deleteManifest_registry_held h]
    refine ⟨rfl, ?_⟩
    intro other hne
    simp [Registry.remove, hne]
  | false =>
    rw [deleteManifest_registry_missing h]
    exact ⟨rfl, fun _ _ => rfl⟩

theorem registry_candidates_frame (workers : Int) (hw : 0 < workers) (repo : String)
    (cs : List String) :
    ∀ r : Run Registry, ∃ r1, pruneCandidates Registry.server workers repo cs r = .next r1 ∧
      r1.st.repos = r.st.repos ∧
      ∀ other, other ≠ repo → r1.st.tags other = r.st.tags other := by
  induction cs with
  | nil => intro r; exact ⟨r, rfl, rfl, fun _ _ => rfl⟩
  | cons t rest ih =>
    intro r
    rw [pruneCandidates]
    cases hl : (r.st.tags repo).lookup t with
    | none =>
      rw [manifestDigest_registry_none hl]
      exact ih _
    | some d =>
      rw [manifestDigest_registry_some hl]
      simp only [sendJob_next _ workers hw]
      obtain ⟨r1, h1, h2, h3⟩ := ih (deleteManifest Registry.server repo d
        { st := r.st, log := r.log ++ [Call.manifestDigest repo t],
          jobs := r.jobs ++ [⟨repo, t, d⟩] }).2
      have hf := deleteManifest_registry_frame repo d
        { st := r.st, log := r.log ++ [Call.manifestDigest repo t],
          jobs := r.jobs ++ [⟨repo, t, d⟩] }
      refine ⟨r1, h1, h2.trans hf.1, ?_⟩
      intro other hne
      rw [h3 other hne, hf.2 other hne]

theorem eq_of_nodup_map {α β : Type} (f : α → β) {L : List α} (h : (L.map f).Nodup)
    {a b : α} (ha : a ∈ L) (hb : b ∈ L) (hab : f a = f b) : a = b :=
  List.inj_on_of_nodup_map h ha hb hab

theorem registry_candidates_apart (workers : Int) (hw : 0 < workers) (repo : String)
    (L : List (String × String)) (cs : List String) (hn : (L.map Prod.fst).Nodup)
    (hsep : ∀ e ∈ L, ∀ f ∈ L, e.1 ∈ cs → f.1 ∉ cs → e.2 ≠ f.2) (todo : List String) :
    ∀ r : Run Registry, (r.st.tags repo).Sublist L →
      ((r.st.tags repo).filter fun e => !(cs.contains e.1)) =
        (L.filter fun e => !(cs.contains e.1)) →
      (∀ e ∈ r.st.tags repo, e.1 ∈ cs → e.1 ∈ todo) → (∀ t ∈ todo, t ∈ cs) →
      ∃ r1, pruneCandidates Registry.server workers repo todo r = .next r1 ∧
        r1.st.tags repo = L.filter fun e => !(cs.contains e.1) := by
  induction todo with
  | nil =>
    intro r _ hkeep hpend _
    refine ⟨r, rfl, ?_⟩
    rw [← hkeep]
    symm
    rw [List.filter_eq_self]
    intro e he
    have : e.1 ∉ cs := fun hc => absurd (hpend e he hc) (List.not_mem_nil _)
    simp [this]
  | cons t rest ih =>
    intro r hsub hkeep hpend htodo
    rw [pruneCandidates]
    cases hl : (r.st.tags repo).lookup t with
    | none =>
      rw [manifestDigest_registry_none hl]
      refine ih { r with log := r.log ++ [Call.manifestDigest repo t] } hsub hkeep ?_
        (fun x hx => htodo x (List.mem_cons_of_mem _ hx))
      intro e he hc
      rcases List.mem_cons.1 (hpend e he hc) with h | h
      · exact absurd h (lookup_none_not_mem hl e he)
      · exact h
    | some d =>
      rw [manifestDigest_registry_some hl]
      simp only [sendJob_next _ workers hw]
      have hmem := lookup_some_mem hl
      have hheld : r.st.holds repo d = true := by
        simp only [Registry.holds, List.any_eq_true]
        exact ⟨(t, d), hmem, by simp⟩
      have hdel := @deleteManifest_registry_held repo d
        { st := r.st, log := r.log ++ [Call.manifestDigest repo t],
          jobs := r.jobs ++ [⟨repo, t, d⟩] } hheld
      rw [hdel]
      have htags : (r.st.remove repo d).tags repo =
          (r.st.tags repo).filter fun e => !(e.2 == d) := by
        simp [Registry.remove]
      have hsub1 : ((r.st.remove repo d).tags repo).Sublist (r.st.tags repo) := by
        rw [htags]
        exact List.filter_sublist _
      have htcs : t ∈ cs := htodo t (List.mem_cons_self _ _)
      refine ih
        { st := r.st.remove repo d,
          log := r.log ++ [Call.manifestDigest repo t] ++ [Call.deleteManifest repo d],
          jobs := r.jobs ++ [⟨repo, t, d⟩] }
        (hsub1.trans hsub) ?_ ?_ (fun x hx => htodo x (List.mem_cons_of_mem _ hx))
      · show ((r.st.remove repo d).tags repo).filter (fun e => !(cs.contains e.1)) = _
        rw [htags, List.filter_filter, ← hkeep]
        apply List.filter_congr
        intro e he
        by_cases hc : e.1 ∈ cs
        · simp [hc]
        · have := hsep (t, d) (hsub.subset hmem) e (hsub.subset he) htcs hc
          have hne : ¬ e.2 = d := fun x => this x.symm
          simp [hc, hne]
      · show ∀ e ∈ (r.st.remove repo d).tags repo, e.1 ∈ cs → e.1 ∈ rest
        intro e he hc
        rw [htags] at he
        obtain ⟨he1, he2⟩ := List.mem_filter.1 he
        rcases List.mem_cons.1 (hpend e he1 hc) with h | h
        · have hn1 : ((r.st.tags repo).map Prod.fst).Nodup := hn.sublist (hsub.map _)
          have := eq_of_nodup_map Prod.fst hn1 he1 hmem h
          rw [this] at he2
          simp at he2
        · exact h

theorem registry_repos_frame
    (Slice : (String → String → Bool) → List String → List String)
    (keepN : Nat) (workers : Int) (hw : 0 < workers) (T : String)
    (K : List (String × String)) (hK : K.length ≤ keepN) (repos : List String) :
    ∀ r : Run Registry, r.st.tags T = K →
      ∃ r1, pruneRepos Registry.server Slice keepN workers repos r = .next r1 ∧
        r1.st.tags T = K := by
  induction repos with
  | nil => intro r h; exact ⟨r, rfl, h⟩
  | cons repo rest ih =>
    intro r h
    rw [pruneRepos, tagsList_registry]
    simp only
    split_ifs with hlen
    · exact ih _ h
    · have hne : repo ≠ T := by
        intro e
        apply hlen
        rw [e, Registry.tagNames, List.length_map, h]
        exact hK
      obtain ⟨r2, h2, _, h4⟩ := registry_candidates_frame workers hw repo
        (candidates Slice keepN (r.st.tagNames repo))
        { r with log := r.log ++ [Call.tagsList repo] }
      simp only [h2]
      exact ih r2 (by rw [h4 T (Ne.symm hne)]; exact h)

theorem filter_not_candidates_perm
    {Slice : (String → String → Bool) → List String → List String}
    (hS : sort.Permutes Slice) (keepN : Nat) (names : List String) (hn : names.Nodup) :
    (names.filter fun t => !((candidates Slice keepN names).contains t)).Perm
      (kept Slice keepN names) := by
  have hp := hS newer names
  have hsn : (Slice newer names).Nodup := hp.nodup_iff.2 hn
  have hsplit : Slice newer names = kept Slice keepN names ++ candidates Slice keepN names :=
    (List.take_append_drop keepN _).symm
  refine (hp.symm.filter _).trans ?_
  rw [hsplit] at hsn
  have hdisj := List.disjoint_of_nodup_append hsn
  conv_lhs => rw [hsplit]
  rw [List.filter_append]
  have h1 : (kept Slice keepN names).filter
      (fun t => !((candidates Slice keepN names).contains t)) = kept Slice keepN names := by
    rw [List.filter_eq_self]
    intro a ha
    have : a ∉ candidates Slice keepN names := fun hc => hdisj ha hc
    simp [this]
  have h2 : (candidates Slice keepN names).filter
      (fun t => !((candidates Slice keepN names).contains t)) = [] := by
    rw [List.filter_eq_nil_iff]
    intro a ha
    simp [ha]
  rw [h1, h2, List.append_nil]

theorem kept_length {Slice : (String → String → Bool) → List String → List String}
    (hS : sort.Permutes Slice) (keepN : Nat) (tags : List String)
    (h : keepN ≤ tags.length) : (kept Slice keepN tags).length = keepN := by
  rw [kept, List.length_take, (hS newer tags).length_eq]
  omega

theorem registry_repos_prunes
    (Slice : (String → String → Bool) → List String → List String)
    (hS : sort.Permutes Slice) (keepN : Nat) (workers : Int) (hw : 0 < workers)
    (T : String) (L : List (String × String)) (hlen : keepN < L.length)
    (hn : (L.map Prod.fst).Nodup)
    (hsep : ∀ e ∈ L, ∀ f ∈ L, e.1 ∈ candidates Slice keepN (L.map Prod.fst) →
      f.1 ∉ candidates Slice keepN (L.map Prod.fst) → e.2 ≠ f.2)
    (repos : List String) :
    ∀ r : Run Registry, r.st.tags T = L → T ∈ repos →
      ∃ r1, pruneRepos Registry.server Slice keepN workers repos r = .next r1 ∧
        r1.st.tags T =
          L.filter fun e => !((candidates Slice keepN (L.map Prod.fst)).contains e.1) := by
  have hKlen : (L.filter fun e =>
      !((candidates Slice keepN (L.map Prod.fst)).contains e.1)).length ≤ keepN := by
    have h1 : ((L.filter fun e =>
        !((candidates Slice keepN (L.map Prod.fst)).contains e.1)).map Prod.fst) =
        (L.map Prod.fst).filter
          fun t => !((candidates Slice keepN (L.map Prod.fst)).contains t) := by
      rw [List.filter_map]
      rfl
    have h2 := (filter_not_candidates_perm hS keepN (L.map Prod.fst) hn).length_eq
    rw [← h1, List.length_map, kept_length hS keepN _ (by rw [List.length_map]; omega)] at h2
    omega
  induction repos with
  | nil => intro r _ hT; simp at hT
  | cons repo rest ih =>
    intro r h hT
    rw [pruneRepos, tagsList_registry]
    simp only
    by_cases hr : repo = T
    · subst hr
      have hnames : r.st.tagNames repo = L.map Prod.fst := by rw [Registry.tagNames, h]
      have hgt : ¬ (r.st.tagNames repo).length ≤ keepN := by
        rw [hnames, List.length_map]
        omega
      simp only [hgt, if_false]
      rw [hnames]
      obtain ⟨r2, h2, h3⟩ := registry_candidates_apart workers hw repo L
        (candidates Slice keepN (L.map Prod.fst)) hn hsep
        (candidates Slice keepN (L.map Prod.fst))
        { r with log := r.log ++ [Call.tagsList repo] }
        (by show (r.st.tags repo).Sublist L; rw [h])
        (by show (r.st.tags repo).filter _ = _; rw [h])
        (fun e _ hc => hc) (fun t ht => ht)
      simp only [h2]
      exact registry_repos_frame Slice keepN workers hw repo _ hKlen rest r2 h3
    · have hT2 : T ∈ rest := by
        rcases List.mem_cons.1 hT with e | e
        · exact absurd e.symm hr
        · exact e
      split_ifs with hlen2
      · exact ih _ h hT2
      · obtain ⟨r2, h2, _, h4⟩ := registry_candidates_frame workers hw repo
          (candidates Slice keepN (r.st.tagNames repo))
          { r with log := r.log ++ [Call.tagsList repo] }
        simp only [h2]
        exact ih r2 (by rw [h4 T (Ne.symm hr)]; exact h) hT2

/-- The positive side of C2. Against the registry with explicit state, when at
least one worker runs and the repository is in the catalog with more than
`keepN` distinct tags of which no deletion candidate resolves to the digest of
a kept tag, `pruneTags` returns `nil` and the remaining tags of the repository
are exactly the `keepN` top-ranked tags. -/
theorem pruneTags_keeps_top_keepN (reg : Registry)
    (Slice : (String → String → Bool) → List String → List String)
    (hS : sort.Permutes Slice) (keepN : Nat) (workers : Int) (hw : 0 < workers)
    (repo : String) (hrepo : repo ∈ reg.repos)
    (hlen : keepN < (reg.tagNames repo).length)
    (hnames : (reg.tagNames repo).Nodup)
    (hapart : ∀ e ∈ reg.tags repo, ∀ f ∈ reg.tags repo,
      e.1 ∈ candidates Slice keepN (reg.tagNames repo) →
      f.1 ∈ kept Slice keepN (reg.tagNames repo) → e.2 ≠ f.2) :
    ∃ r, pruneTags Registry.server Slice keepN workers (Run.start reg) = .returned none r ∧
      (r.st.tagNames repo).Perm (kept Slice keepN (reg.tagNames repo)) ∧
      (r.st.tagNames repo).length = keepN := by
  unfold pruneTags
  rw [catalog_registry]
  simp only
  have hsep : ∀ e ∈ reg.tags repo, ∀ f ∈ reg.tags repo,
      e.1 ∈ candidates Slice keepN ((reg.tags repo).map Prod.fst) →
      f.1 ∉ candidates Slice keepN ((reg.tags repo).map Prod.fst) → e.2 ≠ f.2 := by
    intro e he f hf hc hnc
    refine hapart e he f hf hc ?_
    have hfm : f.1 ∈ Slice newer (reg.tagNames repo) :=
      (hS newer (reg.tagNames repo)).symm.subset (List.mem_map_of_mem Prod.fst hf)
    rw [← List.take_append_drop keepN (Slice newer (reg.tagNames repo))] at hfm
    rcases List.mem_append.1 hfm with h | h
    · exact h
    · exact absurd h hnc
  obtain ⟨r1, h1, h2⟩ := registry_repos_prunes Slice hS keepN workers hw repo
    (reg.tags repo) (by rw [Registry.tagNames, List.length_map] at hlen; exact hlen)
    hnames hsep reg.repos
    { (Run.start reg) with log := (Run.start reg).log ++ [Call.catalog] } rfl hrepo
  have hrepos : (Run.start reg).st.repos = reg.repos := rfl
  rw [hrepos, h1]
  have hperm : (r1.st.tagNames repo).Perm (kept Slice keepN (reg.tagNames repo)) := by
    have : r1.st.tagNames repo = (reg.tagNames repo).filter
        fun t => !((candidates Slice keepN (reg.tagNames repo)).contains t) := by
      simp only [Registry.tagNames]
      rw [h2, List.filter_map]
      rfl
    rw [this]
    exact filter_not_candidates_perm hS keepN _ hnames
  refine ⟨r1, rfl, hperm, ?_⟩
  rw [hperm.length_eq]
  exact kept_length hS keepN _ (by omega)

theorem pruneTags_keeps_top_keepN_witness :
    candidates sort.insertionSortLessFunc 2 (appRegistry.tagNames "app") = ["v1"] ∧
    kept sort.insertionSortLessFunc 2 (appRegistry.tagNames "app") = ["v3", "v2"] ∧
    (∃ r, pruneTags Registry.server sort.insertionSortLessFunc 2 8 (Run.start appRegistry) =
        .returned none r ∧
      (r.st.tagNames "app").Perm
        (kept sort.insertionSortLessFunc 2 (appRegistry.tagNames "app")) ∧
      (r.st.tagNames "app").length = 2) ∧
    kept sort.insertionSortLessFunc 2 (twinRegistry.tagNames "app") = ["v4", "v3"] ∧
    (∃ r, pruneTags Registry.server sort.insertionSortLessFunc 2 8 (Run.start twinRegistry) =
        .returned none r ∧
      (r.st.tagNames "app").Perm
        (kept sort.insertionSortLessFunc 2 (twinRegistry.tagNames "app")) ∧
      (r.st.tagNames "app").length = 2) :=
  ⟨by decide, by decide,
    pruneTags_keeps_top_keepN appRegistry sort.insertionSortLessFunc
      sort.insertionSort_permutes 2 8 (by decide) "app" (by decide) (by decide) (by decide)
      (by decide),
    by decide,
    pruneTags_keeps_top_keepN twinRegistry sort.insertionSortLessFunc
      sort.insertionSort_permutes 2 8 (by decide) "app" (by decide) (by decide) (by decide)
      (by decide)⟩

/-- C2 (the code at the failing input). Repository `app` has the tags `v3`, `v2`,
`v1` and `keepN = 2`, but `v1` resolves to the digest of `v3`. The single
candidate is `v1`, every registry call of the run succeeds, and afterwards only
`v2` is left: the kept tag `v3` went with the manifest. -/
theorem pruneTags_shared_digest_removes_kept_tag :
    candidates sort.insertionSortLessFunc 2 (sharedRegistry.tagNames "app") = ["v1"] ∧
    kept sort.insertionSortLessFunc 2 (sharedRegistry.tagNames "app") = ["v3", "v2"] ∧
    (pruneTags Registry.server sort.insertionSortLessFunc 2 8
      (Run.start sharedRegistry)).isBlocked = false ∧
    (pruneTags Registry.server sort.insertionSortLessFunc 2 8
      (Run.start sharedRegistry)).err = none ∧
    (pruneTags Registry.server sort.insertionSortLessFunc 2 8
      (Run.start sharedRegistry)).run.log =
        [Call.catalog, Call.tagsList "app", Call.manifestDigest "app" "v1",
         Call.deleteManifest "app" "sha256:c"] ∧
    (pruneTags Registry.server sort.insertionSortLessFunc 2 8
      (Run.start sharedRegistry)).run.jobs = [⟨"app", "v1", "sha256:c"⟩] ∧
    (deleteManifest Registry.server "app" "sha256:c" (Run.start sharedRegistry)).1 = none ∧
    (pruneTags Registry.server sort.insertionSortLessFunc 2 8
      (Run.start sharedRegistry)).run.st.tagNames "app" = ["v2"] := by
  decide

/-- C7 (amended). `deleteManifest` returns `nil` exactly when the registry
answers with a 2xx status. Against a registry that holds the manifest the
first call returns `nil` and removes the manifest; the second call, answered
404, returns the error `status 404`. -/
theorem deleteManifest_second_call_is_an_error (repo digest : String) (r : Run Registry)
    (h : r.st.holds repo digest = true) :
    (deleteManifest Registry.server repo digest r).1 = none ∧
    (deleteManifest Registry.server repo digest r).2.st.holds repo digest = false ∧
    (deleteManifest Registry.server repo digest
      (deleteManifest Registry.server repo digest r).2).1 = some (GoError.status 404) ∧
    (∀ res : Http Unit, deleteResult res = none ↔
      ∃ status, res = Http.response status () ∧ status / 100 = 2) := by
  rw [deleteManifest_registry_held h]
  refine ⟨rfl, holds_remove _ _ _, ?_, ?_⟩
  · rw [deleteManifest_registry_missing (holds_remove _ _ _)]
  · intro res
    cases res with
    | failed msg => simp [deleteResult]
    | response status p => simp [deleteResult]

theorem deleteManifest_second_call_is_an_error_witness :
    appRegistry.holds "app" "sha256:a" = true ∧
    (deleteManifest Registry.server "app" "sha256:a" (Run.start appRegistry)).1 = none ∧
    (deleteManifest Registry.server "app" "sha256:a"
      (Run.start appRegistry)).2.st.holds "app" "sha256:a" = false ∧
    (deleteManifest Registry.server "app" "sha256:a"
      (deleteManifest Registry.server "app" "sha256:a" (Run.start appRegistry)).2).1 =
        some (GoError.status 404) ∧
    (∀ res : Http Unit, deleteResult res = none ↔
      ∃ status, res = Http.response status () ∧ status / 100 = 2) :=
  ⟨by decide, deleteManifest_second_call_is_an_error "app" "sha256:a"
    (Run.start appRegistry) (by decide)⟩

/-- C7 (counterexample). The registry holds `sha256:a` in `app`; the first
`deleteManifest` returns `nil`, the second one does not. -/
theorem deleteManifest_twice_fails_the_second_time :
    appRegistry.holds "app" "sha256:a" = true ∧
    (deleteManifest Registry.server "app" "sha256:a" (Run.start appRegistry)).1 = none ∧
    ¬ (deleteManifest Registry.server "app" "sha256:a"
        (deleteManifest Registry.server "app" "sha256:a" (Run.start appRegistry)).2).1
      = none := by
  decide

/-! ### The debounce flag -/

theorem scheduleGC_pending (s : Sys) (h : s.hookPend = true) : scheduleGC s = s := by
  unfold scheduleGC
  simp [h]

theorem exec_notify_pending (n : Nat) (s : Sys) (h : s.hookPend = true) :
    s.exec (List.replicate n Event.notify) = s := by
  induction n with
  | zero => rfl
  | succ k ih =>
    rw [List.replicate_succ, Sys.exec, List.foldl_cons]
    have : s.step Event.notify = s := scheduleGC_pending s h
    rw [this]
    exact ih

theorem exec_append (s : Sys) (es fs : List Event) :
    s.exec (es ++ fs) = (s.exec es).exec fs := by
  simp [Sys.exec, List.foldl_append]

theorem exec_cons (s : Sys) (e : Event) (es : List Event) :
    s.exec (e :: es) = (s.step e).exec es := rfl

theorem step_hookView_of_other (s : Sys) (e : Event) (he : e.isHookStep = false)
    (hn : e ≠ Event.notify) : (s.step e).hookView = s.hookView := by
  obtain ⟨hp, a, rh, rm, rt, uh, um, ut, st, g⟩ := s
  cases e with
  | notify => exact absurd rfl hn
  | timerFire => simp [Event.isHookStep] at he
  | gcRequest => rfl
  | pruneRequest => rfl
  | tick =>
    simp only [Sys.step]
    split_ifs <;> rfl
  | gcStart o =>
    cases o with
    | hook => simp [Event.isHookStep] at he
    | manual =>
      simp only [Sys.step]
      split_ifs <;> rfl
    | ticker =>
      simp only [Sys.step]
      split_ifs <;> rfl
  | gcDone o =>
    cases o with
    | hook => simp [Event.isHookStep] at he
    | manual =>
      simp only [Sys.step]
      split_ifs <;> rfl
    | ticker =>
      simp only [Sys.step]
      split_ifs <;> rfl

theorem step_hookView_pending (s : Sys) (e : Event) (he : e.isHookStep = false)
    (hp : s.hookPend = true) : (s.step e).hookView = s.hookView := by
  by_cases hn : e = Event.notify
  · subst hn
    have : s.step Event.notify = s := scheduleGC_pending s hp
    rw [this]
  · exact step_hookView_of_other s e he hn

theorem hookView_hookPend (s : Sys) : s.hookView.hookPend = s.hookPend := rfl

theorem exec_hookView_pending (es : List Event) : ∀ s : Sys, s.hookPend = true →
    (∀ e ∈ es, e.isHookStep = false) → (s.exec es).hookView = s.hookView := by
  induction es with
  | nil => intro s _ _; rfl
  | cons e es ih =>
    intro s hp hes
    rw [exec_cons]
    have h1 := step_hookView_pending s e (hes e (List.mem_cons_self _ _)) hp
    have hp1 : (s.step e).hookPend = true := by
      rw [← hookView_hookPend, h1]
      exact hp
    rw [ih (s.step e) hp1 (fun x hx => hes x (List.mem_cons_of_mem _ hx)), h1]

theorem exec_hookView_burst (es : List Event) : ∀ s : Sys, s.hookPend = false →
    Event.notify ∈ es → (∀ e ∈ es, e.isHookStep = false) →
    (s.exec es).hookView =
      { s.hookView with hookPend := true, armed := s.armed + 1,
                        started := s.started + 1 } := by
  induction es with
  | nil => intro s _ hn _; simp at hn
  | cons e es ih =>
    intro s hp hn hes
    rw [exec_cons]
    have hrest : ∀ x ∈ es, x.isHookStep = false :=
      fun x hx => hes x (List.mem_cons_of_mem _ hx)
    by_cases hne : e = Event.notify
    · subst hne
      have hs1 : (s.step Event.notify).hookPend = true := by
        simp [Sys.step, scheduleGC, hp]
      rw [exec_hookView_pending es _ hs1 hrest]
      simp [Sys.step, scheduleGC, hp, Sys.hookView]
    · have h1 := step_hookView_of_other s e (hes e (List.mem_cons_self _ _)) hne
      have hp1 : (s.step e).hookPend = false := by
        rw [← hookView_hookPend, h1]
        exact hp
      have hn1 : Event.notify ∈ es := by
        rcases List.mem_cons.1 hn with h | h
        · exact absurd h.symm hne
        · exact h
      rw [ih (s.step e) hp1 hn1 hrest]
      have e1 : (s.step e).hookView.armed = s.hookView.armed := by rw [h1]
      have e2 : (s.step e).hookView.started = s.hookView.started := by rw [h1]
      have e3 : (s.step e).armed = s.armed := e1
      have e4 : (s.step e).started = s.started := e2
      rw [h1, e3, e4]

theorem of_hookView {t : Sys} {p : Bool} {a r u n g : Nat}
    (h : t.hookView = ⟨p, a, r, u, n, g⟩) :
    t.hookPend = p ∧ t.armed = a ∧ t.readyHook = r ∧ t.runningHook = u ∧
    t.started = n ∧ t.hookGCs = g :=
  ⟨congrArg HookView.hookPend h, congrArg HookView.armed h, congrArg HookView.readyHook h,
   congrArg HookView.runningHook h, congrArg HookView.started h,
   congrArg HookView.hookGCs h⟩

theorem step_timerFire_hookView (t : Sys) (h : 0 < t.armed) :
    (t.step Event.timerFire).hookView =
      { t.hookView with armed := t.armed - 1, readyHook := t.readyHook + 1 } := by
  simp [Sys.step, h, Sys.hookView]

theorem step_gcStart_hookView (t : Sys) (h : 0 < t.readyHook) :
    (t.step (Event.gcStart Origin.hook)).hookView =
      { t.hookView with readyHook := t.readyHook - 1, runningHook := t.runningHook + 1,
                        hookGCs := t.hookGCs + 1 } := by
  simp [Sys.step, h, Sys.hookView]

theorem step_gcDone_hookView (t : Sys) (h : 0 < t.runningHook) :
    (t.step (Event.gcDone Origin.hook)).hookView =
      { t.hookView with runningHook := t.runningHook - 1, hookPend := false } := by
  simp [Sys.step, h, Sys.hookView]

/-- C8. From any state with `hookPend = false`, a burst of events that holds at
least one `scheduleGC` call and no step of a delayed action starts exactly one
delayed action and invokes no `runGC`; `N >= 1` calls alone change nothing else
in the state. A call made while `hookPend` is set leaves the state unchanged.
When the timer then fires, whatever is notified or requested meanwhile, the
delayed action invokes `runGC` exactly once with `hookPend` still set, and once
it has completed `hookPend` is false again. -/
theorem scheduleGC_coalesces_notifications (s : Sys) (es m2 m3 : List Event)
    (hs : s.hookPend = false) (hn : Event.notify ∈ es)
    (hes : ∀ e ∈ es, e.isHookStep = false) (hm2 : ∀ e ∈ m2, e.isHookStep = false)
    (hm3 : ∀ e ∈ m3, e.isHookStep = false) :
    (s.exec es).hookView =
      { s.hookView with hookPend := true, armed := s.armed + 1,
                        started := s.started + 1 } ∧
    (∀ N : Nat, 1 ≤ N → s.exec (List.replicate N Event.notify) =
      { s with hookPend := true, armed := s.armed + 1, started := s.started + 1 }) ∧
    (∀ t : Sys, t.hookPend = true → t.step Event.notify = t) ∧
    (s.exec (es ++ Event.timerFire :: (m2 ++ [Event.gcStart Origin.hook]))).hookView =
      { s.hookView with hookPend := true, runningHook := s.runningHook + 1,
                        started := s.started + 1, hookGCs := s.hookGCs + 1 } ∧
    (s.exec (es ++ Event.timerFire :: (m2 ++ Event.gcStart Origin.hook ::
        (m3 ++ [Event.gcDone Origin.hook])))).hookView =
      { s.hookView with started := s.started + 1, hookGCs := s.hookGCs + 1 } := by
  have h1 := exec_hookView_burst es s hs hn hes
  -- the state after the burst
  have v1 : (s.exec es).hookView =
      ⟨true, s.armed + 1, s.readyHook, s.runningHook, s.started + 1, s.hookGCs⟩ := by
    rw [h1]; rfl
  obtain ⟨_, a1, b1, c1, d1, g1⟩ := of_hookView v1
  -- the timer fires
  have v2 : ((s.exec es).step Event.timerFire).hookView =
      ⟨true, s.armed, s.readyHook + 1, s.runningHook, s.started + 1, s.hookGCs⟩ := by
    rw [step_timerFire_hookView (s.exec es) (by omega), v1, a1, b1]
    rfl
  have v3 : (((s.exec es).step Event.timerFire).exec m2).hookView =
      ⟨true, s.armed, s.readyHook + 1, s.runningHook, s.started + 1, s.hookGCs⟩ := by
    rw [exec_hookView_pending m2 _ (of_hookView v2).1 hm2, v2]
  obtain ⟨_, a3, b3, c3, d3, g3⟩ := of_hookView v3
  -- the delayed action enters runGC
  have v4 : ((((s.exec es).step Event.timerFire).exec m2).step
      (Event.gcStart Origin.hook)).hookView =
      ⟨true, s.armed, s.readyHook, s.runningHook + 1, s.started + 1, s.hookGCs + 1⟩ := by
    rw [step_gcStart_hookView _ (by omega), v3, b3, c3, g3]
    rfl
  have v5 : (((((s.exec es).step Event.timerFire).exec m2).step
      (Event.gcStart Origin.hook)).exec m3).hookView =
      ⟨true, s.armed, s.readyHook, s.runningHook + 1, s.started + 1, s.hookGCs + 1⟩ := by
    rw [exec_hookView_pending m3 _ (of_hookView v4).1 hm3, v4]
  obtain ⟨_, a5, b5, c5, d5, g5⟩ := of_hookView v5
  -- runGC returns
  have v6 : ((((((s.exec es).step Event.timerFire).exec m2).step
      (Event.gcStart Origin.hook)).exec m3).step (Event.gcDone Origin.hook)).hookView =
      ⟨false, s.armed, s.readyHook, s.runningHook, s.started + 1, s.hookGCs + 1⟩ := by
    rw [step_gcDone_hookView _ (by omega), v5, c5]
    rfl
  refine ⟨h1, ?_, fun t ht => scheduleGC_pending t ht, ?_, ?_⟩
  · intro N hN
    obtain ⟨k, rfl⟩ : ∃ k, N = k + 1 := ⟨N - 1, by omega⟩
    rw [List.replicate_succ, exec_cons]
    have hstep : s.step Event.notify =
        { s with hookPend := true, armed := s.armed + 1, started := s.started + 1 } := by
      simp [Sys.step, scheduleGC, hs]
    rw [hstep]
    exact exec_notify_pending k _ rfl
  · rw [exec_append, exec_cons, exec_append]
    have hlast : ∀ t : Sys, t.exec [Event.gcStart Origin.hook] =
        t.step (Event.gcStart Origin.hook) := fun _ => rfl
    rw [hlast, v4]
    rfl
  · rw [exec_append, exec_cons, exec_append, exec_cons, exec_append]
    have hlast : ∀ t : Sys, t.exec [Event.gcDone Origin.hook] =
        t.step (Event.gcDone Origin.hook) := fun _ => rfl
    rw [hlast, v6]
    simp [Sys.hookView, hs]

theorem scheduleGC_coalesces_notifications_witness :
    busyState.hookPend = false ∧ busyState.started = 1 ∧ busyState.runningManual = 1 ∧
    (busyState.exec [Event.notify, Event.gcRequest, Event.notify, Event.notify]).hookView =
      { busyState.hookView with hookPend := true, armed := busyState.armed + 1,
                                started := busyState.started + 1 } ∧
    (∀ N : Nat, 1 ≤ N → busyState.exec (List.replicate N Event.notify) =
      { busyState with hookPend := true, armed := busyState.armed + 1,
                       started := busyState.started + 1 }) ∧
    (∀ t : Sys, t.hookPend = true → t.step Event.notify = t) ∧
    (busyState.exec ([Event.notify, Event.gcRequest, Event.notify, Event.notify] ++
        Event.timerFire :: ([Event.notify] ++ [Event.gcStart Origin.hook]))).hookView =
      { busyState.hookView with hookPend := true,
                                runningHook := busyState.runningHook + 1,
                                started := busyState.started + 1,
                                hookGCs := busyState.hookGCs + 1 } ∧
    (busyState.exec ([Event.notify, Event.gcRequest, Event.notify, Event.notify] ++
        Event.timerFire :: ([Event.notify] ++ Event.gcStart Origin.hook ::
          ([Event.notify, Event.tick] ++ [Event.gcDone Origin.hook])))).hookView =
      { busyState.hookView with started := busyState.started + 1,
                                hookGCs := busyState.hookGCs + 1 } :=
  ⟨by decide, by decide, by decide,
    scheduleGC_coalesces_notifications busyState
      [Event.notify, Event.gcRequest, Event.notify, Event.notify] [Event.notify]
      [Event.notify, Event.tick] (by decide) (by decide) (by decide) (by decide)
      (by decide)⟩

theorem Sys.step_inv (s : Sys) (e : Event) (h : s.Inv) : (s.step e).Inv := by
  obtain ⟨hp, a, rh, rm, rt, uh, um, ut, st, g⟩ := s
  simp only [Sys.Inv, Sys.hookAlive] at h
  obtain ⟨h1, h2⟩ := h
  cases e with
  | notify =>
    cases hp
    · simp only [Bool.false_eq_true, if_false] at h1
      refine ⟨?_, h2⟩
      simp only [Sys.step, scheduleGC, Sys.hookAlive, Bool.false_eq_true, if_false, if_true]
      omega
    · exact ⟨h1, h2⟩
  | timerFire =>
    simp only [Sys.step]
    split_ifs with h3
    · refine ⟨?_, h2⟩
      simp only [Sys.hookAlive]
      rw [← h1]
      omega
    · exact ⟨h1, h2⟩
  | gcRequest => exact ⟨h1, h2⟩
  | pruneRequest => exact ⟨h1, h2⟩
  | tick =>
    simp only [Sys.step]
    split_ifs with h3
    · refine ⟨h1, ?_⟩
      simp only
      omega
    · exact ⟨h1, h2⟩
  | gcStart o =>
    cases o with
    | hook =>
      simp only [Sys.step]
      split_ifs with h3
      · refine ⟨?_, h2⟩
        simp only [Sys.hookAlive]
        rw [← h1]
        omega
      · exact ⟨h1, h2⟩
    | manual =>
      simp only [Sys.step]
      split_ifs with h3
      · exact ⟨h1, h2⟩
      · exact ⟨h1, h2⟩
    | ticker =>
      simp only [Sys.step]
      split_ifs with h3
      · refine ⟨h1, ?_⟩
        simp only
        omega
      · exact ⟨h1, h2⟩
  | gcDone o =>
    cases o with
    | hook =>
      simp only [Sys.step]
      split_ifs with h3
      · refine ⟨?_, h2⟩
        simp only [Sys.hookAlive, Bool.false_eq_true, if_false]
        cases hp
        · simp only [Bool.false_eq_true, if_false] at h1
          omega
        · simp only [if_true] at h1
          omega
      · exact ⟨h1, h2⟩
    | manual =>
      simp only [Sys.step]
      split_ifs with h3
      · exact ⟨h1, h2⟩
      · exact ⟨h1, h2⟩
    | ticker =>
      simp only [Sys.step]
      split_ifs with h3
      · refine ⟨h1, ?_⟩
        simp only
        omega
      · exact ⟨h1, h2⟩

theorem Sys.exec_inv (es : List Event) : ∀ s : Sys, s.Inv → (s.exec es).Inv := by
  induction es with
  | nil => intro s h; exact h
  | cons e es ih =>
    intro s h
    rw [Sys.exec, List.foldl_cons]
    exact ih _ (Sys.step_inv s e h)

/-- C9 (amended). In every reachable state the delayed actions of `scheduleGC`
that are alive number one when `hookPend` is set and none otherwise, so at most
one `runGC` started by the debounce timer is running, and at most one started
by the periodic loop; nothing bounds the invocations started by `/gc` and
`/prune`. -/
theorem runGC_overlap_only_across_origins (es : List Event) :
    (Sys.init.exec es).hookAlive = (if (Sys.init.exec es).hookPend then 1 else 0) ∧
    (Sys.init.exec es).runningHook ≤ 1 ∧
    (Sys.init.exec es).runningTicker ≤ 1 := by
  have h := Sys.exec_inv es Sys.init ⟨rfl, by decide⟩
  obtain ⟨h1, h2⟩ := h
  refine ⟨h1, ?_, by omega⟩
  unfold Sys.hookAlive at h1
  split_ifs at h1 <;> omega

/-- C9 (counterexample). Two requests to `/gc` lead to a reachable state in
which two `runGC` invocations are running. -/
theorem two_manual_requests_run_runGC_twice :
    (Sys.init.exec [Event.gcRequest, Event.gcRequest, Event.gcStart Origin.manual,
      Event.gcStart Origin.manual]).running = 2 ∧
    ¬ ∀ es : List Event, (Sys.init.exec es).running ≤ 1 := by
  refine ⟨by decide, ?_⟩
  intro h
  exact absurd (h [Event.gcRequest, Event.gcRequest, Event.gcStart Origin.manual,
    Event.gcStart Origin.manual]) (by decide)

theorem fitsUint64_eq_true {a : String} (h : fitsUint64 a = true) :
    ∃ va, semver.StrictNewVersion a.data = some va ∧
      SemVerSpec.numericFits va.pre = true := by
  unfold fitsUint64 at h
  cases hs : semver.StrictNewVersion a.data with
  | none => rw [hs] at h; simp at h
  | some v => rw [hs] at h; exact ⟨v, rfl, h⟩

theorem fitsUint64_isSemver {a : String} (h : fitsUint64 a = true) : isSemver a = true := by
  obtain ⟨va, ha, _⟩ := fitsUint64_eq_true h
  unfold isSemver
  rw [ha]
  rfl

theorem newer_eq_higherPrecedence {a b : String} (ha : fitsUint64 a = true)
    (hb : fitsUint64 b = true) : newer a b = higherPrecedence a b := by
  obtain ⟨va, ea, fa⟩ := fitsUint64_eq_true ha
  obtain ⟨vb, eb, fb⟩ := fitsUint64_eq_true hb
  rw [newer_of_semver ea eb, semver.keyOf_eq_ofVersion va fa, semver.keyOf_eq_ofVersion vb fb]
  unfold higherPrecedence semverOf
  rw [ea, eb]
  rfl

theorem Cut_cons_ne {sep c : Char} (h : c ≠ sep) (cs : List Char) {a b : List Char}
    (hc : strings.Cut sep (c :: cs) = some (a, b)) : ∃ a1, a = c :: a1 := by
  rw [strings.Cut] at hc
  simp only [h, if_false] at hc
  split at hc
  · exact absurd hc (by simp)
  · simp only [Option.some.injEq, Prod.mk.injEq] at hc
    exact ⟨_, hc.1.symm⟩

theorem SplitN_three_head {c : Char} (h : c ≠ '.') (cs : List Char)
    {p0 p1 p2 : List Char} (hs : strings.SplitN '.' (c :: cs) 3 = [p0, p1, p2]) :
    ∃ a1, p0 = c :: a1 := by
  rw [strings.SplitN] at hs
  split at hs
  · simp at hs
  · rename_i a b hcut
    simp only [List.cons.injEq] at hs
    obtain ⟨a1, ha1⟩ := Cut_cons_ne h cs hcut
    exact ⟨a1, by rw [← hs.1, ha1]⟩

theorem StrictNewVersion_nondigit_head (c : Char) (hc : strconv.isDigit c = false)
    (hdot : c ≠ '.') (cs : List Char) : semver.StrictNewVersion (c :: cs) = none := by
  unfold semver.StrictNewVersion
  simp only [List.isEmpty_cons, Bool.false_eq_true, if_false]
  split
  · rename_i p0 p1 p2 hs
    obtain ⟨a1, ha1⟩ := SplitN_three_head hdot cs hs
    have hv : semver.validSegment p0 = false := by
      rw [ha1]
      simp [semver.validSegment, semver.containsOnly, semver.num, hc]
    split
    · rfl
    · split
      · rfl
      · simp [hv]
  · rfl

/-- C3 (amended). For tags that `semver.StrictNewVersion` accepts and whose
numeric pre-release identifiers are below `2^64`, `newer a b` holds exactly
when `a` has higher semantic-version precedence than `b`. When at least one of
the two is not accepted, `newer a b` is the byte-wise `a > b`; a tag that
starts with `v` is never accepted, so `newer("v1.10.0", "v1.9.0")` is false. -/
theorem newer_is_precedence_on_strict_semver (a b : String) :
    (fitsUint64 a = true → fitsUint64 b = true →
      (newer a b = true ↔ higherPrecedence a b = true)) ∧
    ((isSemver a = false ∨ isSemver b = false) →
      newer a b = strings.Greater a.data b.data) ∧
    (∀ cs : List Char, isSemver (String.mk ('v' :: cs)) = false) ∧
    newer "1.10.0" "1.9.0" = true ∧ newer "1.9.0" "1.10.0" = false ∧
    newer "v1.10.0" "v1.9.0" = false ∧ newer "v1.9.0" "v1.10.0" = true := by
  refine ⟨?_, ?_, ?_, by decide, by decide, by decide, by decide⟩
  · intro ha hb
    rw [newer_eq_higherPrecedence ha hb]
  · intro h
    exact newer_fallback (h.imp isSemver_eq_false isSemver_eq_false)
  · intro cs
    unfold isSemver
    rw [StrictNewVersion_nondigit_head 'v' (by decide) (by decide) cs]
    rfl

theorem newer_is_precedence_on_strict_semver_witness :
    fitsUint64 "1.10.0" = true ∧ fitsUint64 "1.9.0" = true ∧
    (newer "1.10.0" "1.9.0" = true ↔ higherPrecedence "1.10.0" "1.9.0" = true) ∧
    isSemver "v2.0.0" = false ∧
    newer "v2.0.0" "latest" = strings.Greater "v2.0.0".data "latest".data ∧
    sort.insertionSortLessFunc newer ["v2.0.0", "latest", "v1.0.0"] =
      ["v2.0.0", "v1.0.0", "latest"] ∧
    candidates sort.insertionSortLessFunc 1 ["v2.0.0", "latest", "v1.0.0"] =
      ["v1.0.0", "latest"] :=
  ⟨by decide, by decide,
   (newer_is_precedence_on_strict_semver "1.10.0" "1.9.0").1 (by decide) (by decide),
   by decide,
   (newer_is_precedence_on_strict_semver "v2.0.0" "latest").2.1 (Or.inl (by decide)),
   by decide, by decide⟩

/-- C3 (counterexample). The tags `v1.10.0`, `v1.9.0` and `v2.0.0` are rejected by
`semver.StrictNewVersion`, and `newer("v1.10.0", "v1.9.0")` is false while
`newer("v1.9.0", "v1.10.0")` is true. -/
theorem newer_v_tags_compare_bytewise :
    newer "v1.10.0" "v1.9.0" = false ∧ newer "v1.9.0" "v1.10.0" = true ∧
    isSemver "v1.10.0" = false ∧ isSemver "v1.9.0" = false ∧ isSemver "v2.0.0" = false := by
  decide

/-- C1 (the code at the failing input). The two tags are distinct and accepted
by `semver.StrictNewVersion`; with `keepN = 1` the candidate is
`1.0.0-100000000000000000000` although it has strictly higher semantic-version
precedence than the kept `1.0.0-99999999999999999999`: `comparePrePart` reads a
numeric identifier above `2^64 - 1` as a string. -/
theorem candidates_overflowing_prerelease :
    ["1.0.0-100000000000000000000", "1.0.0-99999999999999999999"].Nodup ∧
    isSemver "1.0.0-100000000000000000000" = true ∧
    isSemver "1.0.0-99999999999999999999" = true ∧
    kept sort.insertionSortLessFunc 1
      ["1.0.0-100000000000000000000", "1.0.0-99999999999999999999"] =
        ["1.0.0-99999999999999999999"] ∧
    candidates sort.insertionSortLessFunc 1
      ["1.0.0-100000000000000000000", "1.0.0-99999999999999999999"] =
        ["1.0.0-100000000000000000000"] ∧
    newer "1.0.0-99999999999999999999" "1.0.0-100000000000000000000" = true ∧
    higherPrecedence "1.0.0-100000000000000000000" "1.0.0-99999999999999999999" = true := by
  decide

theorem newer_strictWeakOn (tags : List String) (h : ∀ t ∈ tags, isSemver t = true) :
    sort.StrictWeakOn newer tags :=
  ⟨fun a _ => newer_irrefl a,
   fun a ha b hb c hc h1 h2 => newer_trans_semver (h a ha) (h b hb) (h c hc) h1 h2,
   fun a ha b hb c hc h1 => newer_negtrans_semver (h a ha) (h b hb) (h c hc) h1⟩

/-- The positive side of C1. For distinct tags that `semver.StrictNewVersion`
accepts and whose numeric pre-release identifiers are below `2^64`, and for
every sort that meets the contract of `sort.Slice`: the candidates are
`len(tags) - keepN` tags of the list, the kept tags the other `keepN`, and no
candidate has strictly higher semantic-version precedence than a kept tag. -/
theorem candidates_have_lowest_precedence
    (Slice : (String → String → Bool) → List String → List String)
    (hS : sort.Sorts Slice) (keepN : Nat) (tags : List String)
    (hlen : keepN < tags.length) (hnd : tags.Nodup)
    (hfit : ∀ t ∈ tags, fitsUint64 t = true) :
    (candidates Slice keepN tags).length = tags.length - keepN ∧
    (kept Slice keepN tags).length = keepN ∧
    (kept Slice keepN tags ++ candidates Slice keepN tags).Perm tags ∧
    (kept Slice keepN tags ++ candidates Slice keepN tags).Nodup ∧
    ∀ c ∈ candidates Slice keepN tags, ∀ k ∈ kept Slice keepN tags,
      higherPrecedence c k = false := by
  have hperm : (kept Slice keepN tags ++ candidates Slice keepN tags).Perm tags := by
    unfold kept candidates
    rw [List.take_append_drop]
    exact hS.1 newer tags
  refine ⟨candidates_length hS.1 keepN tags, kept_length hS.1 keepN tags (by omega), hperm,
    hperm.nodup_iff.2 hnd, ?_⟩
  intro c hc k hk
  have hsorted := hS.2 newer tags
    (newer_strictWeakOn tags (fun t ht => fitsUint64_isSemver (hfit t ht)))
  rw [← List.take_append_drop keepN (Slice newer tags), List.pairwise_append] at hsorted
  have h1 : newer c k = false := hsorted.2.2 k hk c hc
  have hcm : c ∈ tags := hperm.subset (List.mem_append_right _ hc)
  have hkm : k ∈ tags := hperm.subset (List.mem_append_left _ hk)
  rw [← newer_eq_higherPrecedence (hfit c hcm) (hfit k hkm)]
  exact h1

theorem candidates_have_lowest_precedence_witness :
    (candidates sort.insertionSortLessFunc 2
      ["1.9.0", "1.10.0-rc.1", "1.10.0", "1.2.0+build.7"]).length = 4 - 2 ∧
    (kept sort.insertionSortLessFunc 2
      ["1.9.0", "1.10.0-rc.1", "1.10.0", "1.2.0+build.7"]).length = 2 ∧
    (kept sort.insertionSortLessFunc 2 ["1.9.0", "1.10.0-rc.1", "1.10.0", "1.2.0+build.7"] ++
      candidates sort.insertionSortLessFunc 2
        ["1.9.0", "1.10.0-rc.1", "1.10.0", "1.2.0+build.7"]).Perm
      ["1.9.0", "1.10.0-rc.1", "1.10.0", "1.2.0+build.7"] ∧
    (kept sort.insertionSortLessFunc 2 ["1.9.0", "1.10.0-rc.1", "1.10.0", "1.2.0+build.7"] ++
      candidates sort.insertionSortLessFunc 2
        ["1.9.0", "1.10.0-rc.1", "1.10.0", "1.2.0+build.7"]).Nodup ∧
    ∀ c ∈ candidates sort.insertionSortLessFunc 2
        ["1.9.0", "1.10.0-rc.1", "1.10.0", "1.2.0+build.7"],
      ∀ k ∈ kept sort.insertionSortLessFunc 2
          ["1.9.0", "1.10.0-rc.1", "1.10.0", "1.2.0+build.7"],
        higherPrecedence c k = false :=
  candidates_have_lowest_precedence sort.insertionSortLessFunc sort.insertionSort_sorts 2
    ["1.9.0", "1.10.0-rc.1", "1.10.0", "1.2.0+build.7"] (by decide) (by decide) (by decide)

